import Mathlib

/-!
# neat-go: a shallow embedding of the evolutionary core and its checked properties

The Go sources `network.go` and `neat.go` are embedded as pure Lean functions.

Conventions of the embedding

* `float64` values (weights, fitness, coefficients) are exact rationals `ℚ`.
* `uint` values (gene ids, node ids, node counts, the historical-marking counter) are
  `Nat`; ids are handed out from `0` upwards, one per created gene, so no wrap-around at
  `2^64` is modelled, except for the subtraction `inputs-1` of `activate`, which wraps
  when `inputs` is 0. `int` values (population size, offspring counts) are `Int`.
* A Go `map[uint]*Gene` is the list of its `(id, gene)` entries in insertion order;
  `Network.WF` says that no id occurs twice, which every Go map satisfies.
* Pointers to genomes are replaced by the genome values; a write through a pointer is
  an update of the value held by the owner. The genomes of a population are distinct
  objects, as `NewNeat` and `Reproduce` allocate one per member.
* Where Go iterates over a map, the embedding iterates over the entries in list order.
* The process-wide random source is an explicit stream of raw draws (`Rand`) that is
  threaded through every function that draws from it.
* A run that does not return normally yields `Except.error` with the `Fault` that
  stopped it.
-/

namespace NeatGo

/-! ## Faults and the random source -/

/-- Reasons for which a call does not return normally. -/
inductive Fault where
  /-- An explicit `panic(msg)` of the source. -/
  | panic (msg : String)
  /-- A method call through a nil pointer. -/
  | nilDeref
  /-- An integer remainder with divisor zero. -/
  | divByZero
  /-- A random pick among zero candidates. -/
  | emptyChoice
  /-- The iteration bound given to a model of an unbounded loop ran out. -/
  | fuel
deriving DecidableEq, Repr

/-- The random source: the raw draws still to come, as a stream. -/
def Rand : Type := Nat → Nat

/-- The next raw draw. -/
def Rand.head (rnd : Rand) : Nat := rnd 0

/-- The random source after one draw. -/
def Rand.tail (rnd : Rand) : Rand := fun i => rnd (i + 1)

/-- Go `rand.Float64()`: a value `k / 2^53` with `0 ≤ k < 2^53`, so in `[0, 1)`. -/
def Float64 (rnd : Rand) : ℚ × Rand :=
  (((rnd.head % 2 ^ 53 : Nat) : ℚ) / 2 ^ 53, rnd.tail)

/-- Go `rand.Intn(n)`: a value in `[0, n)`; panics when `n ≤ 0`. -/
def Intn (n : Nat) (rnd : Rand) : Except Fault (Nat × Rand) :=
  if n = 0 then .error .emptyChoice else .ok (rnd.head % n, rnd.tail)

/-- Modelled from the spec: `butils.RandomChance` is imported from a package that is not
among the sources. The spec gates every mutation "by its own configured probability";
the model draws one `Float64` and compares it with the probability. -/
def RandomChance (p : ℚ) (rnd : Rand) : Bool × Rand :=
  let (x, rnd1) := Float64 rnd
  (decide (x < p), rnd1)

/-- Modelled from the spec: `butils.RandomFrom` is imported from a package that is not
among the sources. The spec samples "uniformly at random" from the candidates; the model
returns the candidate at a drawn index and faults when there is no candidate. -/
def RandomFrom {α : Type} (xs : List α) (rnd : Rand) : Except Fault (α × Rand) :=
  match xs[rnd.head % xs.length]? with
  | some x => .ok (x, rnd.tail)
  | none => .error .emptyChoice

/-! ## network.go -/

/-- Go `type NodeType int` with its three constants. -/
inductive NodeType where
  | Input
  | Output
  | Hidden
deriving DecidableEq, Repr

/-- Go `type Range struct{ min, max float64 }`. -/
structure Range where
  min : ℚ
  max : ℚ
deriving DecidableEq, Repr

/-- Go `Range.Random`. -/
def Range.Random (r : Range) (rnd : Rand) : ℚ × Rand :=
  let (x, rnd1) := Float64 rnd
  (r.min + x * (r.max - r.min), rnd1)

/-- Go `type Gene struct`; the source field `in` is written `in_`. -/
structure Gene where
  enabled : Bool
  in_ : Nat
  out : Nat
  weight : ℚ
deriving DecidableEq, Repr

/-- The zero value `Gene{}`. -/
def Gene.zero : Gene := ⟨false, 0, 0, 0⟩

/-- Go `SquashLinear`. -/
def SquashLinear (val : ℚ) : ℚ := val

/-- Go `type NetworkConfig struct`. -/
structure NetworkConfig where
  inputs : Nat
  outputs : Nat
  squash : ℚ → ℚ
  evalIterations : Nat
  weightRange : Range
  nudgeRange : Range
  changeWeightChance : ℚ

/-- Go `type Network struct`; `genes` lists the entries of the map. -/
structure Network where
  genes : List (Nat × Gene)
  fitness : ℚ
  adjustedFitness : ℚ
  config : NetworkConfig

/-- The entries of `genes` form a map: no id occurs twice. -/
def Network.WF (n : Network) : Prop := (n.genes.map Prod.fst).Nodup

instance (n : Network) : Decidable n.WF :=
  inferInstanceAs (Decidable (n.genes.map Prod.fst).Nodup)

/-- Go `Network.Copy`: the gene map is cloned, the other fields are copied by value. -/
def Network.Copy (n : Network) : Network := { n with genes := n.genes }

/-- Go `Network.MaxId`. -/
def Network.MaxId (n : Network) : Nat :=
  n.genes.foldl (fun max e => if e.1 > max then e.1 else max) 0

/-- Go `Network.MinId`. -/
def Network.MinId (n : Network) : Nat :=
  n.genes.foldl (fun min e => if e.1 < min then e.1 else min) n.MaxId

/-- Go `Network.Nodes`: the keys of the node map, each once. -/
def Network.Nodes (n : Network) : List Nat :=
  (List.range (n.config.inputs + n.config.outputs)
    ++ n.genes.flatMap (fun e => [e.2.in_, e.2.out])).dedup

/-- Go `Network.MaxNode`. -/
def Network.MaxNode (n : Network) : Nat :=
  n.Nodes.foldl (fun max node => if node > max then node else max) 0

/-- The map index expression `n.genes[id]` with its presence flag. -/
def Network.at? (n : Network) (id : Nat) : Option NeatGo.Gene :=
  (n.genes.find? (fun e => e.1 == id)).map Prod.snd

/-- Go `Network.HasGene`. -/
def Network.HasGene (n : Network) (id : Nat) : Bool := (n.at? id).isSome

/-- Go `Network.Gene`: the gene and `true`, or `Gene{}` and `false`. -/
def Network.Gene (n : Network) (id : Nat) : NeatGo.Gene × Bool :=
  match n.at? id with
  | some gene => (gene, true)
  | none => (Gene.zero, false)

/-- Go `Network.GeneInOut`. -/
def Network.GeneInOut (n : Network) (in_ out : Nat) : NeatGo.Gene × Bool :=
  match n.genes.find? (fun e => e.2.in_ == in_ && e.2.out == out) with
  | some e => (e.2, true)
  | none => (Gene.zero, false)

/-- Go `Network.AddGene`: the genome afterwards and the returned error, if any. -/
def Network.AddGene (n : Network) (id in_ out : Nat) (weight : ℚ) :
    Network × Option String :=
  if n.HasGene id then
    (n, some ("Already has gene of id " ++ toString id))
  else
    ({ n with genes := n.genes ++ [(id, ⟨true, in_, out, weight⟩)] }, none)

/-- The loop body of `NudgeWeights`, over the entries of the map. -/
def nudgeGenes (cfg : NetworkConfig) : List (Nat × Gene) → Rand → List (Nat × Gene) × Rand
  | [], rnd => ([], rnd)
  | (id, g) :: rest, rnd =>
    let (change, rnd1) := RandomChance cfg.changeWeightChance rnd
    let (newWeight, rnd2) :=
      if change then cfg.weightRange.Random rnd1
      else ((g.weight + (cfg.nudgeRange.Random rnd1).1), (cfg.nudgeRange.Random rnd1).2)
    let (rest1, rnd3) := nudgeGenes cfg rest rnd2
    ((id, { g with weight := newWeight }) :: rest1, rnd3)

/-- Go `Network.NudgeWeights`. -/
def Network.NudgeWeights (n : Network) (rnd : Rand) : Network × Rand :=
  let (genes, rnd1) := nudgeGenes n.config n.genes rnd
  ({ n with genes := genes }, rnd1)

/-- The loop body of `RandomizeWeights`, over the entries of the map. -/
def randomizeGenes (cfg : NetworkConfig) :
    List (Nat × Gene) → Rand → List (Nat × Gene) × Rand
  | [], rnd => ([], rnd)
  | (id, g) :: rest, rnd =>
    let (newWeight, rnd1) := cfg.weightRange.Random rnd
    let (rest1, rnd2) := randomizeGenes cfg rest rnd1
    ((id, { g with weight := newWeight }) :: rest1, rnd2)

/-- Go `Network.RandomizeWeights`. -/
def Network.RandomizeWeights (n : Network) (rnd : Rand) : Network × Rand :=
  let (genes, rnd1) := randomizeGenes n.config n.genes rnd
  ({ n with genes := genes }, rnd1)

/-- Go `Network.NodeType`. -/
def Network.NodeType (n : Network) (node : Nat) : NodeType :=
  if node < n.config.inputs then .Input
  else if node < n.config.inputs + n.config.outputs then .Output
  else .Hidden

/-- The first loop of `MutateAddGene`: the nodes usable as source and as target. -/
def Network.inOutNodes (n : Network) : List Nat × List Nat :=
  n.Nodes.foldl
    (fun (acc : List Nat × List Nat) node =>
      match n.NodeType node with
      | .Input => (acc.1 ++ [node], acc.2)
      | .Hidden => (acc.1 ++ [node], acc.2 ++ [node])
      | .Output => (acc.1, acc.2 ++ [node]))
    ([], [])

/-- The retry loop of `MutateAddGene` with `tries` attempts left. -/
def Network.addGeneTries (n : Network) (inNodes outNodes : List Nat) :
    Nat → Nat → Rand → Except Fault (Network × Nat × Rand)
  | 0, inno, rnd => .ok (n, inno, rnd)
  | tries + 1, inno, rnd =>
    match RandomFrom inNodes rnd with
    | .error f => .error f
    | .ok (in_, rnd1) =>
      match RandomFrom outNodes rnd1 with
      | .error f => .error f
      | .ok (out, rnd2) =>
        let ok1 := (n.GeneInOut in_ out).2
        let ok2 := (n.GeneInOut out in_).2
        if in_ ≠ out ∧ ok1 = false ∧ ok2 = false then
          let (weight, rnd3) := n.config.weightRange.Random rnd2
          .ok ((n.AddGene inno in_ out weight).1, inno + 1, rnd3)
        else
          n.addGeneTries inNodes outNodes tries inno rnd2

/-- Go `Network.MutateAddGene`: the genome, the counter and the random source afterwards. -/
def Network.MutateAddGene (n : Network) (inno : Nat) (rnd : Rand) :
    Except Fault (Network × Nat × Rand) :=
  n.addGeneTries n.inOutNodes.1 n.inOutNodes.2 5 inno rnd

/-- The write `n.genes[id].enabled = false` through the gene pointer. -/
def Network.disable (n : Network) (id : Nat) : Network :=
  let off : Nat × NeatGo.Gene → Nat × NeatGo.Gene :=
    fun e => if e.1 = id then (e.1, { e.2 with enabled := false }) else e
  { n with genes := n.genes.map off }

/-- Go `Network.MutateAddNode`: the genome, the counter and the random source afterwards. -/
def Network.MutateAddNode (n : Network) (inno : Nat) (rnd : Rand) :
    Except Fault (Network × Nat × Rand) :=
  let possibleGeneIds := (n.genes.filter (fun e => e.2.enabled)).map Prod.fst
  if possibleGeneIds.length = 0 then
    .ok (n, inno, rnd)
  else
    match RandomFrom possibleGeneIds rnd with
    | .error f => .error f
    | .ok (id, rnd1) =>
      match n.at? id with
      | none => .error .nilDeref
      | some gene =>
        let newNode := n.Nodes.foldl (fun nw node => if node > nw then node else nw) 0 + 1
        let n1 := n.disable id
        let n2 := (n1.AddGene inno gene.in_ newNode 1).1
        let n3 := (n2.AddGene (inno + 1) newNode gene.out gene.weight).1
        .ok (n3, inno + 2, rnd1)

/-- Go `NewNetwork`; seeding the random source is the choice of the stream. -/
def NewNetwork (config : NetworkConfig) : Network :=
  { genes := [], fitness := 0, adjustedFitness := 0, config := config }

/-- Go `Network.GenesOutOf`. -/
def Network.GenesOutOf (n : Network) (node : Nat) : List NeatGo.Gene :=
  (n.genes.filter (fun e => e.2.in_ == node)).map Prod.snd

/-- Go `Network.GenesInto`. -/
def Network.GenesInto (n : Network) (node : Nat) : List NeatGo.Gene :=
  (n.genes.filter (fun e => e.2.out == node)).map Prod.snd

/-- The node values of `activate`, a Go `map[uint]float64`: `none` is an absent key. -/
def NodeMap : Type := Nat → Option ℚ

/-- The read `nodeMap[k]`: the zero value when the key is absent. -/
def NodeMap.get (m : NodeMap) (k : Nat) : ℚ := (m k).getD 0

/-- The write `nodeMap[k] = v`. -/
def NodeMap.set (m : NodeMap) (k : Nat) (v : ℚ) : NodeMap :=
  fun i => if i = k then some v else m i

/-- The body of the node loop of `activate` at node `j`. -/
def Network.activateNode (n : Network) (nodeMap : NodeMap) (j : Nat) : NodeMap :=
  if (nodeMap j).isSome then
    let val := (n.GenesInto j).foldl
      (fun val gene => if gene.enabled then val + gene.weight * nodeMap.get gene.in_ else val) 0
    nodeMap.set j (n.config.squash val)
  else nodeMap

/-- One iteration of `activate`: the loop `for j := n.MaxNode(); j > n.config.inputs-1; j--`.
The bound `inputs-1` is computed in `uint`, so it wraps to `2^64 - 1` when `inputs` is 0. -/
def Network.activatePass (n : Network) (nodeMap : NodeMap) : NodeMap :=
  let bound := (n.config.inputs + (2 ^ 64 - 1)) % 2 ^ 64
  (List.range' (bound + 1) (n.MaxNode - bound)).reverse.foldl n.activateNode nodeMap

/-- Go `Network.activate`. -/
def Network.activate (n : Network) (inputs : List ℚ) : Except Fault (List ℚ) :=
  if inputs.length ≠ n.config.inputs then
    .error (.panic "Wrong number of inputs")
  else
    let nodeMap0 : NodeMap := n.Nodes.foldl (fun m node => m.set node 0) (fun _ => none)
    let nodeMap1 := (List.range n.config.inputs).foldl
      (fun m i => m.set i (inputs[i]?.getD 0)) nodeMap0
    let nodeMap2 := (List.range n.config.evalIterations).foldl
      (fun m _ => n.activatePass m) nodeMap1
    .ok ((List.range' n.config.inputs n.config.outputs).map (fun i => nodeMap2.get i))

/-! ## neat.go -/

/-- Go `type NeatConfig struct`. -/
structure NeatConfig where
  size : Int
  networkConfig : NetworkConfig
  startingWeights : Int
  c1 : ℚ
  c2 : ℚ
  c3 : ℚ
  threshold : ℚ
  addGeneChance : ℚ
  addNodeChance : ℚ
  nudgeWeightsChance : ℚ

/-- Go `type Neat struct`. -/
structure Neat where
  inno : Nat
  gen : Int
  config : NeatConfig
  pop : List Network

/-- Go `type Species struct`. -/
structure Species where
  orgs : List Network
  offspring : Int
  adjustedSum : ℚ

/-- Go `Species.Rep`: the first genome of the species, if there is one. -/
def Species.Rep (s : Species) : Option Network := s.orgs.head?

/-- Go `NewSpecies`. -/
def NewSpecies (rep : Network) : Species :=
  { orgs := [] ++ [rep], offspring := 0, adjustedSum := 0 }

/-- Go `sort.Slice(xs, less)`, as the stable insertion sort that the library runs on
slices of at most 12 elements. On longer slices the library leaves the order of elements
that `less` does not separate unspecified. -/
def sortSlice {α : Type} (less : α → α → Bool) (xs : List α) : List α :=
  xs.insertionSort (fun a b => less b a = false)

/-- Go `Neat.MutateNetwork`. -/
def Neat.MutateNetwork (neat : Neat) (n : Network) (inno : Nat) (rnd : Rand) :
    Except Fault (Network × Nat × Rand) :=
  let (addGene, rnd1) := RandomChance neat.config.addGeneChance rnd
  match (if addGene then n.MutateAddGene inno rnd1 else .ok (n, inno, rnd1)) with
  | .error f => .error f
  | .ok (n1, inno1, rnd2) =>
    let (addNode, rnd3) := RandomChance neat.config.addNodeChance rnd2
    match (if addNode then n1.MutateAddNode inno1 rnd3 else .ok (n1, inno1, rnd3)) with
    | .error f => .error f
    | .ok (n2, inno2, rnd4) =>
      let (nudge, rnd5) := RandomChance neat.config.nudgeWeightsChance rnd4
      if nudge then
        .ok ((n2.NudgeWeights rnd5).1, inno2, (n2.NudgeWeights rnd5).2)
      else
        .ok (n2, inno2, rnd5)

/-- The state of the alignment loop of `Distance`. -/
structure Tally where
  excess : Int
  disjoint : Int
  weightDiffs : List ℚ
deriving DecidableEq, Repr

/-- The body of the alignment loop of `Distance` at one id. -/
def distanceStep (n1 n2 : Network) (excessStart excessEnd : Nat) (t : Tally) (id : Nat) :
    Tally :=
  let (n1Gene, n1Has) := n1.Gene id
  let (n2Gene, n2Has) := n2.Gene id
  if n1Has ≠ n2Has then
    if id < excessStart ∨ id > excessEnd then
      { t with excess := t.excess + 1 }
    else
      { t with disjoint := t.disjoint + 1 }
  else if n1Has = n2Has then
    { t with weightDiffs := t.weightDiffs ++ [|n1Gene.weight - n2Gene.weight|] }
  else t

/-- The first half of `Distance`: the id range, the excess bounds and the alignment loop
`for id := min; id <= max; id++`. -/
def distanceTally (n1 n2 : Network) : Tally :=
  let min1 := n1.MinId
  let min2 := n2.MinId
  let max1 := n1.MaxId
  let max2 := n2.MaxId
  let min := if min1 < min2 then min1 else min2
  let excessStart := if min1 < min2 then min2 else min2
  let max := if max1 > max2 then max1 else max2
  let excessEnd := if max1 > max2 then max2 else max1
  (List.range' min (max + 1 - min)).foldl (distanceStep n1 n2 excessStart excessEnd)
    ⟨0, 0, []⟩

/-- The average `wBar` that `Distance` takes of the recorded weight differences. -/
def meanWeightDiff (weightDiffs : List ℚ) : ℚ :=
  let sum := weightDiffs.foldl (fun s d => s + d) 0
  if weightDiffs.length > 0 then sum / (weightDiffs.length : ℚ) else 0

/-- The normaliser `N` of `Distance`. -/
def distanceN (n1 n2 : Network) : Int :=
  let N : Int := if n1.genes.length > n2.genes.length then n1.genes.length
    else n2.genes.length
  if N < 20 then 1 else N

/-- Go `Neat.Distance`. -/
def Neat.Distance (neat : Neat) (n1 n2 : Network) : ℚ :=
  let t := distanceTally n1 n2
  let wBar := meanWeightDiff t.weightDiffs
  let N := distanceN n1 n2
  neat.config.c1 * ((t.excess : ℚ) / (N : ℚ)) + neat.config.c2 * ((t.disjoint : ℚ) / (N : ℚ))
    + neat.config.c3 * wBar

/-- Go `BestFitness`: `none` is the nil pointer. -/
def BestFitness (group : List Network) : Option Network :=
  (group.foldl
    (fun (acc : ℚ × Option Network) g => if g.fitness > acc.1 then (g.fitness, some g) else acc)
    (0, none)).2

/-- Go `SortByFitness`. -/
def SortByFitness (group : List Network) : List Network :=
  sortSlice (fun a b => decide (a.fitness > b.fitness)) group

/-- Go `SortByAdjustedFitness`. -/
def SortByAdjustedFitness (group : List Network) : List Network :=
  sortSlice (fun a b => decide (a.adjustedFitness > b.adjustedFitness)) group

/-- Go `SumAdjustedFitness`. -/
def SumAdjustedFitness (group : List Network) : ℚ :=
  group.foldl (fun sum g => sum + g.adjustedFitness) 0

/-- The inner loop of `Speciate`: the species list after `network` joined the first species
whose representative is within the threshold, or `none` when no species took it. -/
def Neat.joinFirst (neat : Neat) (network : Network) : List Species → Option (List Species)
  | [] => none
  | species :: rest =>
    match species.Rep with
    | some rep =>
      if neat.Distance network rep ≤ neat.config.threshold then
        some ({ species with orgs := species.orgs ++ [network] } :: rest)
      else
        (neat.joinFirst network rest).map (fun r => species :: r)
    | none => (neat.joinFirst network rest).map (fun r => species :: r)

/-- The clustering loop of `Speciate` over the population. -/
def Neat.cluster (neat : Neat) (pop : List Network) : List Species :=
  pop.foldl
    (fun speciesList network =>
      match neat.joinFirst network speciesList with
      | some joined => joined
      | none => speciesList ++ [NewSpecies network])
    []

/-- The body of the second loop of `Speciate` for one species: fitness sharing, the
adjusted sum, and the sort by fitness. In Go the members are pointers into the population,
so the shared fitness is also written to the genomes of `neat.pop`. -/
def shareFitness (species : Species) : Species :=
  let n := species.orgs.length
  let orgs := species.orgs.map (fun org => { org with adjustedFitness := org.fitness / (n : ℚ) })
  let sum := orgs.foldl (fun sum org => sum + org.adjustedFitness) 0
  { species with orgs := SortByFitness orgs, adjustedSum := sum }

/-- Go `Neat.Speciate`. -/
def Neat.Speciate (neat : Neat) : List Species :=
  sortSlice (fun a b => decide (a.adjustedSum > b.adjustedSum))
    ((neat.cluster neat.pop).map shareFitness)

/-- Go conversion `int(x)` of a float: truncation towards zero. -/
def truncToInt (x : ℚ) : Int := if 0 ≤ x then ⌊x⌋ else ⌈x⌉

/-- The statement `speciesList[i].offspring += 1`; `none` when `i` is out of range. -/
def bumpOffspring : Nat → List Species → Option (List Species)
  | _, [] => none
  | 0, s :: rest => some ({ s with offspring := s.offspring + 1 } :: rest)
  | i + 1, s :: rest => (bumpOffspring i rest).map (fun r => s :: r)

/-- The loop "sprinkle in remaining" of `Reproduce` with `count` iterations left, the
loop variable being `i`. -/
def sprinkle : Nat → Nat → List Species → Except Fault (List Species)
  | 0, _, speciesList => .ok speciesList
  | count + 1, i, speciesList =>
    if speciesList.length = 0 then .error .divByZero
    else
      match bumpOffspring (i % speciesList.length) speciesList with
      | none => .error (.panic "index out of range")
      | some bumped => sprinkle count (i + 1) bumped

/-- The loop `for spec.offspring > 0` of `Reproduce` with `offspring` slots left. -/
def Neat.fillOffspring (neat : Neat) (orgs : List Network) :
    Nat → List Network → Nat → Rand → Except Fault (List Network × Nat × Rand)
  | 0, newPop, inno, rnd => .ok (newPop, inno, rnd)
  | offspring + 1, newPop, inno, rnd =>
    match Intn orgs.length rnd with
    | .error f => .error f
    | .ok (i, rnd1) =>
      match orgs[i]? with
      | none => .error (.panic "index out of range")
      | some org =>
        match neat.MutateNetwork org.Copy inno rnd1 with
        | .error f => .error f
        | .ok (newOrg, inno1, rnd2) =>
          neat.fillOffspring orgs offspring (newPop ++ [newOrg]) inno1 rnd2

/-- The body of the reproduction loop of `Reproduce` for one species. -/
def Neat.reproduceSpecies (neat : Neat) (spec : Species) (newPop : List Network) (inno : Nat)
    (rnd : Rand) : Except Fault (List Network × Nat × Rand) :=
  if spec.orgs.length > 5 ∧ spec.offspring > 0 then
    match BestFitness spec.orgs with
    | none => .error .nilDeref
    | some best =>
      neat.fillOffspring spec.orgs (spec.offspring - 1).toNat (newPop ++ [best.Copy]) inno rnd
  else
    neat.fillOffspring spec.orgs spec.offspring.toNat newPop inno rnd

/-- The reproduction loop of `Reproduce` over the species list. -/
def Neat.reproduceAll (neat : Neat) :
    List Species → List Network → Nat → Rand → Except Fault (List Network × Nat × Rand)
  | [], newPop, inno, rnd => .ok (newPop, inno, rnd)
  | spec :: rest, newPop, inno, rnd =>
    match neat.reproduceSpecies spec newPop inno rnd with
    | .error f => .error f
    | .ok (newPop1, inno1, rnd1) => neat.reproduceAll rest newPop1 inno1 rnd1

/-- The offspring counts that `Reproduce` assigns before the round-robin correction. -/
def Neat.assignOffspring (neat : Neat) (speciesList : List Species) : List Species :=
  let totalAdjustedSum := speciesList.foldl (fun sum s => sum + s.adjustedSum) 0
  let perOffspring := totalAdjustedSum / (neat.config.size : ℚ)
  let fitnessPerOffspring := if perOffspring = 0 then 1 else perOffspring
  speciesList.map (fun s => { s with offspring := truncToInt (s.adjustedSum / fitnessPerOffspring) })

/-- Go `Neat.Reproduce`: the population state and the random source afterwards. -/
def Neat.Reproduce (neat : Neat) (rnd : Rand) : Except Fault (Neat × Rand) :=
  let speciesList := neat.assignOffspring neat.Speciate
  let offspringSum := speciesList.foldl (fun sum s => sum + s.offspring) 0
  let offspringRemaining := neat.config.size - offspringSum
  match sprinkle offspringRemaining.toNat 0 speciesList with
  | .error f => .error f
  | .ok sprinkled =>
    match neat.reproduceAll sprinkled [] neat.inno rnd with
    | .error f => .error f
    | .ok (newPop, inno, rnd1) =>
      .ok ({ neat with inno := inno, pop := newPop, gen := neat.gen + 1 }, rnd1)

/-- The loop `for len(seedNet.genes) < config.startingWeights` of `NewNeat`, run for at
most `fuel` iterations. -/
def seedGenes (startingWeights : Int) :
    Nat → Network → Nat → Rand → Except Fault (Network × Nat × Rand)
  | fuel, seedNet, inno, rnd =>
    if (seedNet.genes.length : Int) < startingWeights then
      match fuel with
      | 0 => .error .fuel
      | fuel1 + 1 =>
        match seedNet.MutateAddGene inno rnd with
        | .error f => .error f
        | .ok (seedNet1, inno1, rnd1) => seedGenes startingWeights fuel1 seedNet1 inno1 rnd1
    else .ok (seedNet, inno, rnd)

/-- The loop of `NewNeat` that fills the population with `count` randomized copies. -/
def seedPop (seedNet : Network) : Nat → List Network → Rand → List Network × Rand
  | 0, pop, rnd => (pop, rnd)
  | count + 1, pop, rnd =>
    seedPop seedNet count (pop ++ [(seedNet.Copy.RandomizeWeights rnd).1])
      (seedNet.Copy.RandomizeWeights rnd).2

/-- Go `NewNeat`; `fuel` bounds the iterations of the seeding loop, which the source
repeats until enough genes were added. -/
def NewNeat (fuel : Nat) (config : NeatConfig) (rnd : Rand) : Except Fault (Neat × Rand) :=
  let seedNet := NewNetwork config.networkConfig
  if config.startingWeights
      > ((config.networkConfig.inputs * config.networkConfig.outputs : Nat) : Int) then
    .error (.panic "Too many starting weights")
  else
    match seedGenes config.startingWeights fuel seedNet 0 rnd with
    | .error f => .error f
    | .ok (seedNet1, inno, rnd1) =>
      .ok ({ inno := inno, gen := 0, config := config,
             pop := (seedPop seedNet1 config.size.toNat [] rnd1).1 },
           (seedPop seedNet1 config.size.toNat [] rnd1).2)

/-! ## Specification vocabulary and concrete inputs -/

/-- The fault that stopped a run, if any. -/
def faultOf {α : Type} : Except Fault α → Option Fault
  | .error f => some f
  | .ok _ => none

/-- The network configuration of `TestNet`, with the linear squash. -/
def testNetworkConfig : NetworkConfig :=
  { inputs := 4, outputs := 6, squash := SquashLinear, evalIterations := 10,
    weightRange := ⟨-5, 5⟩, nudgeRange := ⟨-1 / 5, 1 / 5⟩, changeWeightChance := 1 / 10 }

/-- The configuration of `TestNet` with the given coefficients, size and starting genes. -/
def testConfig (c1 c2 c3 : ℚ) (size startingWeights : Int) : NeatConfig :=
  { size := size, networkConfig := testNetworkConfig, startingWeights := startingWeights,
    c1 := c1, c2 := c2, c3 := c3, threshold := 3,
    addGeneChance := 1 / 20, addNodeChance := 3 / 100, nudgeWeightsChance := 4 / 5 }

/-- A genome of the test configuration with the given genes and fitness. -/
def genomeOf (genes : List (Nat × Gene)) (fitness : ℚ) : Network :=
  { genes := genes, fitness := fitness, adjustedFitness := 0, config := testNetworkConfig }

/-- A population state of the test configuration with the given coefficients. -/
def neatOf (c1 c2 c3 : ℚ) (inno : Nat) (pop : List Network) : Neat :=
  { inno := inno, gen := 0, config := testConfig c1 c2 c3 pop.length 1, pop := pop }

/-- A genome whose only gene has id 5. -/
def genomeHigh : Network := genomeOf [(5, ⟨true, 0, 4, 1⟩)] 0

/-- A genome with genes 3 and 5; gene 5 is the gene of `genomeHigh`. -/
def genomeWide : Network := genomeOf [(3, ⟨true, 1, 4, 1⟩), (5, ⟨true, 0, 4, 1⟩)] 0

/-- A genome with genes 0 and 2 and no gene 1. -/
def genomeGapA : Network := genomeOf [(0, ⟨true, 0, 4, 1⟩), (2, ⟨true, 1, 4, 0⟩)] 0

/-- The genome `genomeGapA` with the weight of gene 0 changed from 1 to 0. -/
def genomeGapB : Network := genomeOf [(0, ⟨true, 0, 4, 0⟩), (2, ⟨true, 1, 4, 0⟩)] 0

/-- The random source whose raw draws are all 0. -/
def zeroRand : Rand := fun _ => 0

/-- A genome with one gene, of the least weight of the weight range, and fitness zero. -/
def genomeZero : Network := genomeOf [(0, ⟨true, 0, 4, -5⟩)] 0

/-- Six copies of `genomeZero` under the coefficients and threshold of `TestNet`: a
population of the configured size 6 in which every fitness is zero. It is the state that
`NewNeat` returns for this configuration under `zeroRand`. -/
def zeroFitnessNeat : Neat :=
  { inno := 1, gen := 0, config := testConfig 1 1 1 6 1, pop := List.replicate 6 genomeZero }

/-- The edge invariant of a genome: no gene is a self-loop, and no two genes join the same
pair of nodes, in either direction. -/
def EdgeInv (n : Network) : Prop :=
  (∀ e ∈ n.genes, e.2.in_ ≠ e.2.out)
    ∧ n.genes.Pairwise (fun e f =>
        ¬ (e.2.in_ = f.2.in_ ∧ e.2.out = f.2.out) ∧ ¬ (e.2.in_ = f.2.out ∧ e.2.out = f.2.in_))

instance (n : Network) : Decidable (EdgeInv n) :=
  inferInstanceAs (Decidable (_ ∧ _))

/-- Repeated application: `k` calls of `MutateAddGene`, each on the genome, counter and
random source left by the call before. -/
def MutateAddGeneTimes : Nat → Network → Nat → Rand → Except Fault (Network × Nat × Rand)
  | 0, n, inno, rnd => .ok (n, inno, rnd)
  | k + 1, n, inno, rnd =>
    match n.MutateAddGene inno rnd with
    | .error f => .error f
    | .ok (n1, inno1, rnd1) => MutateAddGeneTimes k n1 inno1 rnd1

/-- A genome of the test configuration with a hidden node 10 between nodes 0 and 4. -/
def genomeHidden : Network :=
  genomeOf [(0, ⟨false, 0, 4, 2⟩), (1, ⟨true, 0, 10, 1⟩), (2, ⟨true, 10, 4, 2⟩)] 0

/-- The random source whose `i`-th raw draw is `i`. -/
def countingRand : Rand := fun i => i

/-- A genome with one gene and fitness 1. -/
def genomeA : Network := genomeOf [(0, ⟨true, 0, 4, 1⟩)] 1

/-- A genome with the gene of `genomeA` at weight 2, and fitness 3. -/
def genomeB : Network := genomeOf [(0, ⟨true, 0, 4, 2⟩)] 3

/-- A genome with five genes and fitness 5, at distance 4 from `genomeA`. -/
def genomeC : Network :=
  genomeOf [(0, ⟨true, 0, 4, 1⟩), (1, ⟨true, 1, 5, 1⟩), (2, ⟨true, 2, 6, 1⟩),
    (3, ⟨true, 3, 7, 1⟩), (4, ⟨true, 0, 8, 1⟩)] 5

/-- A population of three genomes that falls into two species. -/
def threeNeat : Neat := neatOf 1 1 1 5 [genomeA, genomeB, genomeC]

/-- The species of `genomeA` and `genomeB` after fitness sharing. -/
def speciesAB : Species :=
  { orgs := [{ genomeB with adjustedFitness := 3 / 2 }, { genomeA with adjustedFitness := 1 / 2 }],
    offspring := 0, adjustedSum := 2 }

/-- The species of `genomeC` after fitness sharing. -/
def speciesC : Species :=
  { orgs := [{ genomeC with adjustedFitness := 5 }], offspring := 0, adjustedSum := 5 }

/-- The random source that yields `x` first and then the draws of `rnd`. -/
def Rand.cons (x : Nat) (rnd : Rand) : Rand := fun i =>
  match i with
  | 0 => x
  | j + 1 => rnd j

/-- A genome without the adjusted fitness that `Speciate` overwrites. -/
def Network.core (g : Network) : Network := { g with adjustedFitness := 0 }

/-- The first half of `Reproduce`: speciation, the offspring counts by share of the
adjusted fitness, and the round-robin correction. -/
def Neat.allocateOffspring (neat : Neat) : Except Fault (List Species) :=
  let speciesList := neat.assignOffspring neat.Speciate
  let offspringSum := speciesList.foldl (fun sum s => sum + s.offspring) 0
  let offspringRemaining := neat.config.size - offspringSum
  sprinkle offspringRemaining.toNat 0 speciesList

/-- Every gene id of the genome is below `bound`. -/
def Network.idsBelow (g : Network) (bound : Nat) : Prop := ∀ e ∈ g.genes, e.1 < bound

/-- The driver may assign fitness values between two calls (and `Speciate` writes the
adjusted fitness): the genomes keep their genes and configuration. -/
def SameGenomes (pop pop1 : List Network) : Prop :=
  List.Forall₂ (fun g g1 => g1.genes = g.genes ∧ g1.config = g.config) pop pop1

/-- The population states reachable from `NewNeat` by fitness assignments and completed
`Reproduce` calls. -/
inductive Reachable : Neat → Prop where
  | init (fuel : Nat) (config : NeatConfig) (rnd : Rand) (neat : Neat) (rnd1 : Rand) :
      NewNeat fuel config rnd = Except.ok (neat, rnd1) → Reachable neat
  | assign (neat : Neat) (pop1 : List Network) :
      Reachable neat → SameGenomes neat.pop pop1 → Reachable { neat with pop := pop1 }
  | reproduce (neat : Neat) (rnd : Rand) (neat1 : Neat) (rnd1 : Rand) :
      Reachable neat → neat.Reproduce rnd = Except.ok (neat1, rnd1) → Reachable neat1

/-- The first genome of the population, in population order, that is a member of the
species (members are compared by genes and fitness). -/
def firstAssigned (pop : List Network) (s : Species) : Option Network :=
  pop.find? (fun g => s.orgs.any (fun m => decide (m.genes = g.genes ∧ m.fitness = g.fitness)))

/-- A genome of the test configuration whose genes run from inputs to outputs: two enabled
genes into node 4, a disabled gene into node 4 and an enabled gene into node 5. -/
def genomeFeed : Network :=
  genomeOf [(0, ⟨true, 0, 4, 2⟩), (1, ⟨true, 1, 4, 3⟩), (2, ⟨false, 2, 4, 100⟩),
    (3, ⟨true, 3, 5, -1⟩)] 0

/-- The state `zeroFitnessNeat` after the driver assigned the fitness 1 to every genome. -/
def fitNeat : Neat :=
  { zeroFitnessNeat with pop := List.replicate 6 { genomeZero with fitness := 1 } }

/-- The fitness that buys one offspring, in the words of the specification: the total
adjusted fitness of the species divided by the target population size, and 1 when the
total is exactly zero. -/
def fitnessPerOffspringOf (neat : Neat) : ℚ :=
  if (neat.Speciate.map (fun s => s.adjustedSum)).sum = 0 then 1
  else (neat.Speciate.map (fun s => s.adjustedSum)).sum / (neat.config.size : ℚ)

/-- The rounding shortfall: the target population size minus the sum over the species of
`floor (adjustedSum / fitnessPerOffspring)`. -/
def offspringShortfall (neat : Neat) : Nat :=
  (neat.config.size
    - (neat.Speciate.map (fun s => ⌊s.adjustedSum / fitnessPerOffspringOf neat⌋)).sum).toNat

/-- The number of extra offspring that a round-robin over `len` species, one per turn for
`remaining` turns starting at index 0, gives to the species of index `k`. -/
def roundRobinExtra (remaining len k : Nat) : Nat :=
  ((List.range remaining).filter (fun i => decide (i % len = k))).length

/-- The genome `g1` descends from a genome of `pop` within a call that started with the
counter at `c0` and has it at `c`: its gene ids are those of a genome of `pop`, followed by
the consecutive counter values `a, ..., b - 1` handed out in between. -/
def Descends (pop : List Network) (c0 c : Nat) (g1 : Network) : Prop :=
  ∃ g0 ∈ pop, ∃ a b, c0 ≤ a ∧ a ≤ b ∧ b ≤ c
    ∧ g1.genes.map Prod.fst = g0.genes.map Prod.fst ++ List.range' a (b - a)

/-- No gene id from `c0` upwards occurs in two genomes of the list. -/
def FreshApart (c0 : Nat) (newPop : List Network) : Prop :=
  newPop.Pairwise (fun g h =>
    ∀ id, c0 ≤ id → id ∈ g.genes.map Prod.fst → id ∉ h.genes.map Prod.fst)

/-! ## Reproduction and the best genome -/

/-- C1 (the code departs from the claim): `zeroFitnessNeat` is a population of the
configured size in which every fitness is zero, it is the state in which `NewNeat` leaves
a population of six genomes under `zeroRand`, and for every outcome of the random choices
`Reproduce` stops on it with a nil dereference instead of producing a population. -/
theorem Reproduce_zero_fitness_nilDeref :
    (zeroFitnessNeat.pop.length : Int) = zeroFitnessNeat.config.size
      ∧ (∀ g ∈ zeroFitnessNeat.pop, g.fitness = 0)
      ∧ (∃ rnd1, NewNeat 1 (testConfig 1 1 1 6 1) zeroRand = Except.ok (zeroFitnessNeat, rnd1))
      ∧ ∀ rnd : Rand, zeroFitnessNeat.Reproduce rnd = Except.error Fault.nilDeref := by
  refine ⟨by decide, ?_, ⟨_, by with_unfolding_all rfl⟩, ?_⟩
  · intro g hg
    simp only [zeroFitnessNeat, List.mem_replicate] at hg
    rw [hg.2]; rfl
  · intro rnd
    with_unfolding_all rfl

/-- C6 (the code departs from the claim): when no genome of the group has a positive
fitness, `BestFitness` returns the nil pointer, not a genome of the group. -/
theorem BestFitness_none_of_nonpos (group : List Network)
    (h : ∀ g ∈ group, g.fitness ≤ 0) : BestFitness group = none := by
  have key : ∀ (l : List Network), (∀ g ∈ l, g.fitness ≤ 0) →
      l.foldl (fun (acc : ℚ × Option Network) g =>
        if g.fitness > acc.1 then (g.fitness, some g) else acc) (0, none) = (0, none) := by
    intro l
    induction l with
    | nil => intro _; rfl
    | cons g rest ih =>
      intro hl
      have hg : ¬ g.fitness > 0 := not_lt.mpr (hl g (List.mem_cons_self g rest))
      simp only [List.foldl_cons, hg, if_false]
      exact ih (fun x hx => hl x (List.mem_cons_of_mem g hx))
  unfold BestFitness
  rw [key group h]

/-- C6, at a group of one genome with fitness zero. -/
theorem BestFitness_none_of_nonpos_witness :
    [genomeZero] ≠ [] ∧ BestFitness [genomeZero] = none :=
  ⟨by simp, BestFitness_none_of_nonpos [genomeZero] (by
    intro g hg
    rw [List.mem_singleton.mp hg]
    exact le_of_eq rfl)⟩

/-! ## Compatibility distance -/

/-- C2 (the code departs from the claim): with `c1 = 1` and `c2 = 2` the distance from
`genomeHigh` to `genomeWide` is 2 and the distance back is 1. -/
theorem Distance_not_symmetric :
    (neatOf 1 2 1 0 []).Distance genomeHigh genomeWide = 2
      ∧ (neatOf 1 2 1 0 []).Distance genomeWide genomeHigh = 1 := by
  decide!

/-- C3 (the code departs from the claim): the ids of `genomeHigh` and `genomeWide` overlap
on `[5, 5]` and only `genomeWide` has gene 3, which lies below that range; with
`genomeHigh` passed first gene 3 is counted as disjoint, with `genomeWide` passed first it
is counted as excess. -/
theorem Distance_excess_depends_on_order :
    max genomeHigh.MinId genomeWide.MinId = 5
      ∧ min genomeHigh.MaxId genomeWide.MaxId = 5
      ∧ genomeHigh.HasGene 3 = false ∧ genomeWide.HasGene 3 = true
      ∧ distanceTally genomeHigh genomeWide = ⟨0, 1, [0, 0]⟩
      ∧ distanceTally genomeWide genomeHigh = ⟨1, 0, [0, 0]⟩ := by
  decide!

/-- C4 (the code departs from the claim): `genomeGapA` and `genomeGapB` both have genes 0
and 2, with weight differences 1 and 0, and neither has gene 1; the loop records a third
difference 0 for id 1, so the weight term is 1/3 where the mean over the shared ids
is 1/2. -/
theorem Distance_mean_counts_absent_id :
    (genomeGapA.HasGene 1 = false ∧ genomeGapB.HasGene 1 = false)
      ∧ (distanceTally genomeGapA genomeGapB).weightDiffs = [1, 0, 0]
      ∧ meanWeightDiff (distanceTally genomeGapA genomeGapB).weightDiffs = 1 / 3
      ∧ (neatOf 0 0 1 0 []).Distance genomeGapA genomeGapB = 1 / 3 := by
  decide!

theorem distanceStep_self (n : Network) (es ee : Nat) (t : Tally) (id : Nat) :
    distanceStep n n es ee t id = { t with weightDiffs := t.weightDiffs ++ [0] } := by
  simp [distanceStep]

theorem foldl_distanceStep_self (n : Network) (es ee : Nat) (ids : List Nat) (t : Tally) :
    ids.foldl (distanceStep n n es ee) t
      = { t with weightDiffs := t.weightDiffs ++ List.replicate ids.length 0 } := by
  induction ids generalizing t with
  | nil => simp
  | cons id rest ih =>
    rw [List.foldl_cons, distanceStep_self, ih]
    simp [List.replicate_succ]

theorem foldl_add_replicate_zero (k : Nat) :
    (List.replicate k (0 : ℚ)).foldl (fun s d => s + d) 0 = 0 := by
  induction k with
  | zero => rfl
  | succ k ih => simpa [List.replicate_succ] using ih

/-- C5: the distance of a genome to itself is zero, whatever the coefficients. -/
theorem Distance_self (neat : Neat) (a : Network) : neat.Distance a a = 0 := by
  unfold Neat.Distance distanceTally
  simp only [foldl_distanceStep_self]
  simp [meanWeightDiff, foldl_add_replicate_zero]

/-! ## Adding a gene -/

theorem RandomFrom_ok {α : Type} (xs : List α) (rnd : Rand) (h : xs ≠ []) :
    ∃ x, x ∈ xs ∧ RandomFrom xs rnd = Except.ok (x, rnd.tail) := by
  have hlt : rnd.head % xs.length < xs.length :=
    Nat.mod_lt _ (List.length_pos.mpr h)
  refine ⟨xs[rnd.head % xs.length], List.getElem_mem hlt, ?_⟩
  unfold RandomFrom
  rw [List.getElem?_eq_getElem hlt]

theorem mem_Nodes (n : Network) (v : Nat) :
    v ∈ n.Nodes ↔ v < n.config.inputs + n.config.outputs
      ∨ ∃ e ∈ n.genes, v = e.2.in_ ∨ v = e.2.out := by
  unfold Network.Nodes
  simp only [List.mem_dedup, List.mem_append, List.mem_range, List.mem_flatMap,
    List.mem_cons, List.mem_singleton, List.not_mem_nil, or_false]

theorem foldl_inOutNodes (n : Network) (l : List Nat) (acc : List Nat × List Nat) :
    l.foldl
      (fun (acc : List Nat × List Nat) node =>
        match n.NodeType node with
        | .Input => (acc.1 ++ [node], acc.2)
        | .Hidden => (acc.1 ++ [node], acc.2 ++ [node])
        | .Output => (acc.1, acc.2 ++ [node])) acc
      = (acc.1 ++ l.filter (fun v => decide (n.NodeType v ≠ NodeType.Output)),
         acc.2 ++ l.filter (fun v => decide (n.NodeType v ≠ NodeType.Input))) := by
  induction l generalizing acc with
  | nil => simp
  | cons v rest ih =>
    rw [List.foldl_cons, ih]
    cases hv : n.NodeType v <;> simp [hv, List.filter_cons]

theorem inOutNodes_eq (n : Network) :
    n.inOutNodes
      = (n.Nodes.filter (fun v => decide (n.NodeType v ≠ NodeType.Output)),
         n.Nodes.filter (fun v => decide (n.NodeType v ≠ NodeType.Input))) := by
  unfold Network.inOutNodes
  rw [foldl_inOutNodes]
  simp

theorem inNodes_ne_nil (n : Network) (h_in : 0 < n.config.inputs) : n.inOutNodes.1 ≠ [] := by
  rw [inOutNodes_eq]
  apply List.ne_nil_of_mem (a := 0)
  rw [List.mem_filter]
  refine ⟨(mem_Nodes n 0).mpr (Or.inl (by omega)), ?_⟩
  simp [Network.NodeType, h_in]

theorem outNodes_ne_nil (n : Network) (h_out : 0 < n.config.outputs) :
    n.inOutNodes.2 ≠ [] := by
  rw [inOutNodes_eq]
  apply List.ne_nil_of_mem (a := n.config.inputs)
  rw [List.mem_filter]
  refine ⟨(mem_Nodes n _).mpr (Or.inl (by omega)), ?_⟩
  simp [Network.NodeType, h_out]

theorem GeneInOut_false (n : Network) (a b : Nat) (h : (n.GeneInOut a b).2 = false) :
    ∀ e ∈ n.genes, ¬ (e.2.in_ = a ∧ e.2.out = b) := by
  unfold Network.GeneInOut at h
  cases hf : n.genes.find? (fun e => e.2.in_ == a && e.2.out == b) with
  | some e => rw [hf] at h; simp at h
  | none =>
    intro e he
    have := List.find?_eq_none.mp hf e he
    simpa using this

theorem AddGene_config (n : Network) (id a b : Nat) (w : ℚ) :
    (n.AddGene id a b w).1.config = n.config := by
  unfold Network.AddGene
  split <;> rfl

theorem AddGene_EdgeInv (n : Network) (id a b : Nat) (w : ℚ) (h : EdgeInv n) (hab : a ≠ b)
    (h1 : (n.GeneInOut a b).2 = false) (h2 : (n.GeneInOut b a).2 = false) :
    EdgeInv (n.AddGene id a b w).1 := by
  unfold Network.AddGene
  split
  · exact h
  · refine ⟨?_, ?_⟩
    · intro e he
      rcases List.mem_append.mp he with he | he
      · exact h.1 e he
      · rw [List.mem_singleton.mp he]; exact hab
    · refine List.pairwise_append.mpr ⟨h.2, List.pairwise_singleton _ _, ?_⟩
      intro e he f hf
      rw [List.mem_singleton.mp hf]
      exact ⟨GeneInOut_false n a b h1 e he, GeneInOut_false n b a h2 e he⟩

theorem addGeneTries_EdgeInv (n : Network) (inNodes outNodes : List Nat)
    (hin : inNodes ≠ []) (hout : outNodes ≠ []) (h : EdgeInv n) (tries inno : Nat)
    (rnd : Rand) :
    ∃ n1 inno1 rnd1, n.addGeneTries inNodes outNodes tries inno rnd
        = Except.ok (n1, inno1, rnd1) ∧ EdgeInv n1 ∧ n1.config = n.config := by
  induction tries generalizing rnd with
  | zero => exact ⟨n, inno, rnd, rfl, h, rfl⟩
  | succ tries ih =>
    obtain ⟨a, _, ha⟩ := RandomFrom_ok inNodes rnd hin
    obtain ⟨b, _, hb⟩ := RandomFrom_ok outNodes rnd.tail hout
    unfold Network.addGeneTries
    simp only [ha, hb]
    split
    · rename_i hc
      exact ⟨_, _, _, rfl, AddGene_EdgeInv n inno a b _ h hc.1 hc.2.1 hc.2.2,
        AddGene_config n inno a b _⟩
    · exact ih rnd.tail.tail

theorem MutateAddGene_EdgeInv (n : Network) (h_in : 0 < n.config.inputs)
    (h_out : 0 < n.config.outputs) (h : EdgeInv n) (inno : Nat) (rnd : Rand) :
    ∃ n1 inno1 rnd1, n.MutateAddGene inno rnd = Except.ok (n1, inno1, rnd1)
      ∧ EdgeInv n1 ∧ n1.config = n.config :=
  addGeneTries_EdgeInv n _ _ (inNodes_ne_nil n h_in) (outNodes_ne_nil n h_out) h 5 inno rnd

/-- C7: on a genome with at least one input and one output that has no self-loop and no
two genes joining the same pair of nodes in either direction, any number `k` of successive
`MutateAddGene` calls, under every outcome of the random choices, returns normally and
leaves a genome that still has no self-loop and no two genes joining the same pair of
nodes in either direction. -/
theorem MutateAddGene_preserves_edges (k : Nat) (n : Network) (inno : Nat) (rnd : Rand)
    (h_in : 0 < n.config.inputs) (h_out : 0 < n.config.outputs) (h : EdgeInv n) :
    ∃ n1 inno1 rnd1, MutateAddGeneTimes k n inno rnd = Except.ok (n1, inno1, rnd1)
      ∧ EdgeInv n1 := by
  induction k generalizing n inno rnd with
  | zero => exact ⟨n, inno, rnd, rfl, h⟩
  | succ k ih =>
    obtain ⟨n1, inno1, rnd1, hrun, hinv, hcfg⟩ := MutateAddGene_EdgeInv n h_in h_out h inno rnd
    unfold MutateAddGeneTimes
    simp only [hrun]
    exact ih n1 inno1 rnd1 (hcfg ▸ h_in) (hcfg ▸ h_out) hinv

/-- C7, at three successive calls on a genome with a hidden node. -/
theorem MutateAddGene_preserves_edges_witness :
    ∃ n1 inno1 rnd1, MutateAddGeneTimes 3 genomeHidden 3 countingRand
        = Except.ok (n1, inno1, rnd1) ∧ EdgeInv n1 :=
  MutateAddGene_preserves_edges 3 genomeHidden 3 countingRand (by decide) (by decide)
    (by decide)

/-! ## Adding a node -/

theorem at?_of_mem (n : Network) (hwf : n.WF) (e : Nat × Gene) (he : e ∈ n.genes) :
    n.at? e.1 = some e.2 := by
  unfold Network.at?
  unfold Network.WF at hwf
  generalize n.genes = l at hwf he
  induction l with
  | nil => simp at he
  | cons x rest ih =>
    rw [List.map_cons, List.nodup_cons] at hwf
    rcases List.mem_cons.mp he with rfl | hmem
    · simp
    · have hne : x.1 ≠ e.1 := by
        intro hx
        exact hwf.1 (hx ▸ List.mem_map_of_mem Prod.fst hmem)
      rw [List.find?_cons_of_neg _ (by simpa using hne)]
      exact ih hwf.2 hmem

theorem at?_disable (n : Network) (id j : Nat) :
    (n.disable id).at? j
      = (n.at? j).map (fun g => if j = id then { g with enabled := false } else g) := by
  unfold Network.at? Network.disable
  simp only
  generalize n.genes = l
  induction l with
  | nil => rfl
  | cons x rest ih =>
    rw [List.map_cons]
    by_cases hx : x.1 = j
    · subst hx
      by_cases hid : x.1 = id
      · simp [hid]
      · simp [hid]
    · have h1 : ((if x.1 = id then (x.1, { x.2 with enabled := false }) else x).1 == j) = false := by
        split <;> simpa using hx
      rw [List.find?_cons_of_neg _ (by simpa using h1), List.find?_cons_of_neg _ (by simpa using hx)]
      exact ih

theorem keys_disable (n : Network) (id : Nat) :
    (n.disable id).genes.map Prod.fst = n.genes.map Prod.fst := by
  unfold Network.disable
  simp only [List.map_map]
  apply List.map_congr_left
  intro e _
  simp only [Function.comp]
  split <;> rfl

theorem at?_AddGene (n : Network) (id a b : Nat) (w : ℚ) (j : Nat)
    (h : n.HasGene id = false) :
    (n.AddGene id a b w).1.at? j = if j = id then some ⟨true, a, b, w⟩ else n.at? j := by
  have hnone : n.at? id = none := by
    unfold Network.HasGene at h
    cases hq : n.at? id with
    | none => rfl
    | some g => rw [hq] at h; simp at h
  unfold Network.AddGene
  simp only [h, Bool.false_eq_true, if_false]
  unfold Network.at? at hnone ⊢
  simp only [List.find?_append]
  by_cases hj : j = id
  · subst hj
    have : List.find? (fun e => e.1 == j) n.genes = none := by
      cases hq : List.find? (fun e => e.1 == j) n.genes with
      | none => rfl
      | some g => rw [hq] at hnone; simp at hnone
    simp [this]
  · have hj2 : ¬ id = j := fun h => hj h.symm
    simp [hj, hj2]

theorem keys_AddGene (n : Network) (id a b : Nat) (w : ℚ) (h : n.HasGene id = false) :
    (n.AddGene id a b w).1.genes.map Prod.fst = n.genes.map Prod.fst ++ [id] := by
  unfold Network.AddGene
  simp [h]

theorem foldl_max_spec (l : List Nat) (a : Nat) :
    a ≤ l.foldl (fun nw v => if v > nw then v else nw) a
      ∧ (∀ v ∈ l, v ≤ l.foldl (fun nw v => if v > nw then v else nw) a)
      ∧ (l.foldl (fun nw v => if v > nw then v else nw) a = a
          ∨ l.foldl (fun nw v => if v > nw then v else nw) a ∈ l) := by
  induction l generalizing a with
  | nil => simp
  | cons x rest ih =>
    rw [List.foldl_cons]
    by_cases hxa : x > a
    · simp only [hxa, if_true]
      obtain ⟨h1, h2, h3⟩ := ih x
      refine ⟨by omega, ?_, ?_⟩
      · intro v hv
        rcases List.mem_cons.mp hv with rfl | hv
        · exact h1
        · exact h2 v hv
      · rcases h3 with h3 | h3
        · right; rw [h3]; exact List.mem_cons_self _ _
        · right; exact List.mem_cons_of_mem _ h3
    · simp only [hxa, if_false]
      obtain ⟨h1, h2, h3⟩ := ih a
      refine ⟨h1, ?_, ?_⟩
      · intro v hv
        rcases List.mem_cons.mp hv with rfl | hv
        · omega
        · exact h2 v hv
      · rcases h3 with h3 | h3
        · left; exact h3
        · right; exact List.mem_cons_of_mem _ h3

/-- C8: on a genome with at least one enabled gene, called with a counter `c` such that
neither `c` nor `c + 1` is a gene id, `MutateAddNode` returns with the counter at `c + 2`
after picking an enabled gene `g` (at `id`): afterwards `g` is disabled with its source,
target and weight unchanged, every other gene that was there is unchanged, and the only
new ids are `c`, holding the enabled gene `g.source -> m + 1` of weight 1, and `c + 1`,
holding the enabled gene `m + 1 -> g.target` of the weight of `g`, where `m` is the
largest node id before the call. -/
theorem MutateAddNode_spec (n : Network) (c : Nat) (rnd : Rand) (hwf : n.WF)
    (hen : ∃ e ∈ n.genes, e.2.enabled = true)
    (hc : n.HasGene c = false) (hc1 : n.HasGene (c + 1) = false) :
    ∃ id g m n1 rnd1,
      n.MutateAddNode c rnd = Except.ok (n1, c + 2, rnd1)
        ∧ n.at? id = some g ∧ g.enabled = true
        ∧ m ∈ n.Nodes ∧ (∀ v ∈ n.Nodes, v ≤ m)
        ∧ n1.at? id = some { g with enabled := false }
        ∧ (∀ j, j ≠ id → j ≠ c → j ≠ c + 1 → n1.at? j = n.at? j)
        ∧ n1.at? c = some ⟨true, g.in_, m + 1, 1⟩
        ∧ n1.at? (c + 1) = some ⟨true, m + 1, g.out, g.weight⟩
        ∧ n1.genes.map Prod.fst = n.genes.map Prod.fst ++ [c, c + 1] := by
  obtain ⟨e0, he0, hen0⟩ := hen
  have hne : (n.genes.filter (fun e => e.2.enabled)).map Prod.fst ≠ [] := by
    apply List.ne_nil_of_mem (a := e0.1)
    exact List.mem_map_of_mem Prod.fst (List.mem_filter.mpr ⟨he0, hen0⟩)
  obtain ⟨id, hid, hpick⟩ := RandomFrom_ok _ rnd hne
  obtain ⟨e, hemem, rfl⟩ := List.mem_map.mp hid
  obtain ⟨he, henabled⟩ := List.mem_filter.mp hemem
  have hat : n.at? e.1 = some e.2 := at?_of_mem n hwf e he
  -- the largest node id
  obtain ⟨_, hmax, hmem⟩ := foldl_max_spec n.Nodes 0
  have hin : e.2.in_ ∈ n.Nodes := (mem_Nodes n _).mpr (Or.inr ⟨e, he, Or.inl rfl⟩)
  have hmemN : n.Nodes.foldl (fun nw v => if v > nw then v else nw) 0 ∈ n.Nodes := by
    rcases hmem with h0 | h
    · rw [h0]
      have := hmax _ hin
      rw [h0] at this
      have h00 : e.2.in_ = 0 := by omega
      rw [← h00]; exact hin
    · exact h
  -- the ids c and c + 1 are different from the picked id
  have hidc : e.1 ≠ c := by
    intro h; rw [h] at hat; simp [Network.HasGene, hat] at hc
  have hidc1 : e.1 ≠ c + 1 := by
    intro h; rw [h] at hat; simp [Network.HasGene, hat] at hc1
  have hatc : n.at? c = none := by
    cases hq : n.at? c with
    | none => rfl
    | some g => simp [Network.HasGene, hq] at hc
  have hatc1 : n.at? (c + 1) = none := by
    cases hq : n.at? (c + 1) with
    | none => rfl
    | some g => simp [Network.HasGene, hq] at hc1
  have hd : (n.disable e.1).HasGene c = false := by
    simp [Network.HasGene, at?_disable, hatc]
  have hd1 : ((n.disable e.1).AddGene c e.2.in_
      (n.Nodes.foldl (fun nw v => if v > nw then v else nw) 0 + 1) 1).1.HasGene (c + 1)
        = false := by
    simp [Network.HasGene, at?_AddGene _ _ _ _ _ _ hd, at?_disable, hatc1]
  refine ⟨e.1, e.2, n.Nodes.foldl (fun nw v => if v > nw then v else nw) 0,
    (((n.disable e.1).AddGene c e.2.in_
      (n.Nodes.foldl (fun nw v => if v > nw then v else nw) 0 + 1) 1).1.AddGene (c + 1)
      (n.Nodes.foldl (fun nw v => if v > nw then v else nw) 0 + 1) e.2.out e.2.weight).1,
    rnd.tail, ?_, hat, henabled, hmemN, hmax, ?_, ?_, ?_, ?_, ?_⟩
  · unfold Network.MutateAddNode
    simp only [List.length_eq_zero, hne, if_false, hpick, hat]
  · rw [at?_AddGene _ _ _ _ _ _ hd1, at?_AddGene _ _ _ _ _ _ hd, at?_disable, hat]
    simp [hidc, hidc1]
  · intro j hj hjc hjc1
    rw [at?_AddGene _ _ _ _ _ _ hd1, at?_AddGene _ _ _ _ _ _ hd, at?_disable]
    simp only [hjc, hjc1, if_false, hj]
    cases n.at? j <;> rfl
  · rw [at?_AddGene _ _ _ _ _ _ hd1, at?_AddGene _ _ _ _ _ _ hd]
    simp
  · rw [at?_AddGene _ _ _ _ _ _ hd1]
    simp
  · rw [keys_AddGene _ _ _ _ _ hd1, keys_AddGene _ _ _ _ _ hd, keys_disable]
    simp

/-- C8, at a genome with a hidden node and the counter at 3. -/
theorem MutateAddNode_spec_witness :
    ∃ id g m n1 rnd1,
      genomeHidden.MutateAddNode 3 countingRand = Except.ok (n1, 3 + 2, rnd1)
        ∧ genomeHidden.at? id = some g ∧ g.enabled = true
        ∧ m ∈ genomeHidden.Nodes ∧ (∀ v ∈ genomeHidden.Nodes, v ≤ m)
        ∧ n1.at? id = some { g with enabled := false }
        ∧ (∀ j, j ≠ id → j ≠ 3 → j ≠ 3 + 1 → n1.at? j = genomeHidden.at? j)
        ∧ n1.at? 3 = some ⟨true, g.in_, m + 1, 1⟩
        ∧ n1.at? (3 + 1) = some ⟨true, m + 1, g.out, g.weight⟩
        ∧ n1.genes.map Prod.fst = genomeHidden.genes.map Prod.fst ++ [3, 3 + 1] :=
  MutateAddNode_spec genomeHidden 3 countingRand (by decide)
    ⟨(1, ⟨true, 0, 10, 1⟩), by decide!, rfl⟩ (by decide) (by decide)

/-! ## Speciation -/

theorem sortSlice_perm {α : Type} (less : α → α → Bool) (xs : List α) :
    (sortSlice less xs).Perm xs :=
  List.perm_insertionSort _ xs

theorem mem_sortSlice {α : Type} (less : α → α → Bool) (xs : List α) (x : α) :
    x ∈ sortSlice less xs ↔ x ∈ xs :=
  (sortSlice_perm less xs).mem_iff

theorem joinFirst_orgs_ne_nil (neat : Neat) (network : Network) (sl joined : List Species)
    (h : ∀ s ∈ sl, s.orgs ≠ []) (hj : neat.joinFirst network sl = some joined) :
    ∀ s ∈ joined, s.orgs ≠ [] := by
  induction sl generalizing joined with
  | nil => simp [Neat.joinFirst] at hj
  | cons species rest ih =>
    have hrest : ∀ s ∈ rest, s.orgs ≠ [] := fun s hs => h s (List.mem_cons_of_mem _ hs)
    have hmap : ∀ joined, (neat.joinFirst network rest).map (fun r => species :: r)
        = some joined → ∀ s ∈ joined, s.orgs ≠ [] := by
      intro joined hj
      obtain ⟨r, hr, rfl⟩ := Option.map_eq_some'.mp hj
      intro s hs
      rcases List.mem_cons.mp hs with rfl | hs
      · exact h _ (List.mem_cons_self _ _)
      · exact ih r hrest hr s hs
    unfold Neat.joinFirst at hj
    split at hj
    · split at hj
      · injection hj with hj
        subst hj
        intro s hs
        rcases List.mem_cons.mp hs with rfl | hs
        · simp
        · exact hrest s hs
      · exact hmap joined hj
    · exact hmap joined hj

theorem cluster_orgs_ne_nil (neat : Neat) (pop : List Network) :
    ∀ s ∈ neat.cluster pop, s.orgs ≠ [] := by
  unfold Neat.cluster
  have key : ∀ (l : List Network) (sl : List Species), (∀ s ∈ sl, s.orgs ≠ []) →
      ∀ s ∈ l.foldl
        (fun speciesList network =>
          match neat.joinFirst network speciesList with
          | some joined => joined
          | none => speciesList ++ [NewSpecies network]) sl, s.orgs ≠ [] := by
    intro l
    induction l with
    | nil => intro sl h; exact h
    | cons network rest ih =>
      intro sl h
      rw [List.foldl_cons]
      apply ih
      cases hj : neat.joinFirst network sl with
      | some joined => exact joinFirst_orgs_ne_nil neat network sl joined h hj
      | none =>
        intro s hs
        rcases List.mem_append.mp hs with hs | hs
        · exact h s hs
        · rw [List.mem_singleton.mp hs]; simp [NewSpecies]
  exact key pop [] (by simp)

theorem foldl_add_eq_sum (l : List ℚ) (a : ℚ) :
    l.foldl (fun s d => s + d) a = a + l.sum := by
  induction l generalizing a with
  | nil => simp
  | cons x rest ih => rw [List.foldl_cons, ih, List.sum_cons, add_assoc]

theorem foldl_adjusted_eq_sum (l : List Network) (a : ℚ) :
    l.foldl (fun sum org => sum + org.adjustedFitness) a
      = a + (l.map (fun g => g.adjustedFitness)).sum := by
  induction l generalizing a with
  | nil => simp
  | cons x rest ih => rw [List.foldl_cons, ih, List.map_cons, List.sum_cons, add_assoc]

theorem shareFitness_spec (s : Species) :
    (shareFitness s).orgs.length = s.orgs.length
      ∧ (∀ g ∈ (shareFitness s).orgs,
          g.adjustedFitness = g.fitness / ((shareFitness s).orgs.length : ℚ))
      ∧ (shareFitness s).adjustedSum
          = ((shareFitness s).orgs.map (fun g => g.adjustedFitness)).sum := by
  have hperm := sortSlice_perm (fun a b : Network => decide (a.fitness > b.fitness))
    (s.orgs.map (fun org => { org with adjustedFitness := org.fitness / (s.orgs.length : ℚ) }))
  have hlen : (shareFitness s).orgs.length = s.orgs.length := by
    simp only [shareFitness, SortByFitness]
    rw [hperm.length_eq, List.length_map]
  refine ⟨hlen, ?_, ?_⟩
  · intro g hg
    rw [hlen]
    simp only [shareFitness, SortByFitness] at hg
    rw [hperm.mem_iff] at hg
    obtain ⟨org, _, rfl⟩ := List.mem_map.mp hg
    rfl
  · simp only [shareFitness, SortByFitness]
    rw [foldl_adjusted_eq_sum, zero_add]
    exact ((hperm.map (fun g => g.adjustedFitness)).sum_eq).symm

/-- C10: every species of the list returned by `Speciate` has members, each member's
adjusted fitness is its fitness divided by the number of members, and the adjusted sum of
the species is the sum of the adjusted fitness of its members. -/
theorem Speciate_fitness_sharing (neat : Neat) (s : Species) (hs : s ∈ neat.Speciate) :
    s.orgs ≠ []
      ∧ (∀ g ∈ s.orgs, g.adjustedFitness = g.fitness / (s.orgs.length : ℚ))
      ∧ s.adjustedSum = (s.orgs.map (fun g => g.adjustedFitness)).sum := by
  unfold Neat.Speciate at hs
  rw [mem_sortSlice] at hs
  obtain ⟨s0, hs0, rfl⟩ := List.mem_map.mp hs
  obtain ⟨hlen, hmem, hsum⟩ := shareFitness_spec s0
  refine ⟨?_, hmem, hsum⟩
  intro hnil
  have h0 := cluster_orgs_ne_nil neat neat.pop s0 hs0
  rw [hnil, List.length_nil] at hlen
  exact h0 (List.length_eq_zero.mp hlen.symm)

/-- C10, at the species of two genomes of a population of three. -/
theorem Speciate_fitness_sharing_witness :
    (threeNeat.Speciate.map (fun s => s.orgs.length) = [1, 2]
      ∧ threeNeat.Speciate[1]? = some speciesAB)
      ∧ speciesAB.orgs ≠ []
      ∧ (∀ g ∈ speciesAB.orgs, g.adjustedFitness = g.fitness / (speciesAB.orgs.length : ℚ))
      ∧ speciesAB.adjustedSum = (speciesAB.orgs.map (fun g => g.adjustedFitness)).sum :=
  have h : threeNeat.Speciate = [speciesC, speciesAB] := by with_unfolding_all rfl
  ⟨by rw [h]; exact ⟨rfl, rfl⟩,
    Speciate_fitness_sharing threeNeat speciesAB (by rw [h]; simp)⟩

/-! ## Seeding the population -/

theorem HasGene_false_of_not_mem (n : Network) (id : Nat)
    (h : id ∉ n.genes.map Prod.fst) : n.HasGene id = false := by
  unfold Network.HasGene Network.at?
  have : n.genes.find? (fun e => e.1 == id) = none := by
    apply List.find?_eq_none.mpr
    intro e he hid
    have heq : e.1 = id := by simpa using hid
    exact h (heq ▸ List.mem_map_of_mem Prod.fst he)
  rw [this]; rfl

theorem addGeneTries_shape (n : Network) (inNodes outNodes : List Nat) (tries inno : Nat)
    (rnd : Rand) (n1 : Network) (inno1 : Nat) (rnd1 : Rand)
    (h : n.addGeneTries inNodes outNodes tries inno rnd = Except.ok (n1, inno1, rnd1)) :
    (n1 = n ∧ inno1 = inno)
      ∨ ∃ a b w, n1 = (n.AddGene inno a b w).1 ∧ inno1 = inno + 1 := by
  induction tries generalizing rnd with
  | zero =>
    unfold Network.addGeneTries at h
    injection h with h
    left
    exact ⟨(congrArg Prod.fst h).symm, (congrArg (fun p => p.2.1) h).symm⟩
  | succ tries ih =>
    unfold Network.addGeneTries at h
    split at h
    · exact absurd h (by simp)
    · split at h
      · exact absurd h (by simp)
      · split at h
        simp only at h
        split at h
        · injection h with h
          right
          exact ⟨_, _, _, (congrArg Prod.fst h).symm, (congrArg (fun p => p.2.1) h).symm⟩
        · exact ih _ h

theorem MutateAddGene_keys (n : Network) (inno : Nat) (rnd : Rand) (n1 : Network)
    (inno1 : Nat) (rnd1 : Rand) (hkeys : n.genes.map Prod.fst = List.range inno)
    (h : n.MutateAddGene inno rnd = Except.ok (n1, inno1, rnd1)) :
    n1.genes.map Prod.fst = List.range inno1 ∧ inno1 ≤ inno + 1 := by
  rcases addGeneTries_shape n _ _ 5 inno rnd n1 inno1 rnd1 h with ⟨rfl, rfl⟩ | ⟨a, b, w, rfl, rfl⟩
  · exact ⟨hkeys, Nat.le_succ _⟩
  · refine ⟨?_, le_refl _⟩
    rw [keys_AddGene n inno a b w (HasGene_false_of_not_mem n inno (by simp [hkeys])), hkeys,
      List.range_succ]

theorem seedGenes_keys (startingWeights : Int) (fuel : Nat) (seedNet : Network) (inno : Nat)
    (rnd : Rand) (n1 : Network) (inno1 : Nat) (rnd1 : Rand)
    (hkeys : seedNet.genes.map Prod.fst = List.range inno)
    (hle : (inno : Int) ≤ startingWeights)
    (h : seedGenes startingWeights fuel seedNet inno rnd = Except.ok (n1, inno1, rnd1)) :
    n1.genes.map Prod.fst = List.range inno1 ∧ (inno1 : Int) = startingWeights := by
  have hlen : seedNet.genes.length = inno := by
    have := congrArg List.length hkeys
    simpa using this
  induction fuel generalizing seedNet inno rnd with
  | zero =>
    unfold seedGenes at h
    split at h
    · exact absurd h (by simp)
    · rename_i hnot
      injection h with h
      have e1 : seedNet = n1 := congrArg Prod.fst h
      have e2 : inno = inno1 := congrArg (fun p => p.2.1) h
      subst e1 e2
      exact ⟨hkeys, by omega⟩
  | succ fuel ih =>
    unfold seedGenes at h
    split at h
    · rename_i hlt
      simp only at h
      split at h
      · exact absurd h (by simp)
      · rename_i n2 inno2 rnd2 hrun
        obtain ⟨hk2, hle2⟩ := MutateAddGene_keys seedNet inno rnd n2 inno2 rnd2 hkeys hrun
        have hlen2 : n2.genes.length = inno2 := by
          have := congrArg List.length hk2
          simpa using this
        exact ih n2 inno2 rnd2 hk2 (by omega) h hlen2
    · rename_i hnot
      injection h with h
      have e1 : seedNet = n1 := congrArg Prod.fst h
      have e2 : inno = inno1 := congrArg (fun p => p.2.1) h
      subst e1 e2
      exact ⟨hkeys, by omega⟩

theorem randomizeGenes_keys (cfg : NetworkConfig) (l : List (Nat × Gene)) (rnd : Rand) :
    (randomizeGenes cfg l rnd).1.map Prod.fst = l.map Prod.fst := by
  induction l generalizing rnd with
  | nil => rfl
  | cons x rest ih =>
    obtain ⟨id, g⟩ := x
    simp only [randomizeGenes, List.map_cons]
    rw [ih]

theorem RandomizeWeights_keys (n : Network) (rnd : Rand) :
    (n.RandomizeWeights rnd).1.genes.map Prod.fst = n.genes.map Prod.fst := by
  simp only [Network.RandomizeWeights]
  exact randomizeGenes_keys n.config n.genes rnd

theorem seedPop_spec (seedNet : Network) (count : Nat) (pop : List Network) (rnd : Rand) :
    (seedPop seedNet count pop rnd).1.length = pop.length + count
      ∧ ∀ g ∈ (seedPop seedNet count pop rnd).1,
          g ∈ pop ∨ g.genes.map Prod.fst = seedNet.genes.map Prod.fst := by
  induction count generalizing pop rnd with
  | zero => exact ⟨rfl, fun g hg => Or.inl hg⟩
  | succ count ih =>
    unfold seedPop
    obtain ⟨h1, h2⟩ := ih (pop ++ [(seedNet.Copy.RandomizeWeights rnd).1])
      (seedNet.Copy.RandomizeWeights rnd).2
    refine ⟨by rw [h1]; simp; omega, ?_⟩
    intro g hg
    rcases h2 g hg with hmem | hk
    · rcases List.mem_append.mp hmem with hmem | hmem
      · exact Or.inl hmem
      · right
        rw [List.mem_singleton.mp hmem]
        exact RandomizeWeights_keys seedNet.Copy rnd
    · exact Or.inr hk

theorem RandomFrom_pick (xs : List Nat) (a : Nat) (ha : a ∈ xs) (rnd : Rand) :
    RandomFrom xs (Rand.cons (xs.indexOf a) rnd) = Except.ok (a, rnd) := by
  have hlt : xs.indexOf a < xs.length := List.indexOf_lt_length.mpr ha
  have hhead : (Rand.cons (xs.indexOf a) rnd).head % xs.length = xs.indexOf a :=
    Nat.mod_eq_of_lt hlt
  unfold RandomFrom
  rw [hhead, List.getElem?_indexOf ha]
  rfl

theorem exists_fresh_pair (genes : List (Nat × Gene)) (I O : Nat)
    (hlt : genes.length < I * O) :
    ∃ a b, a < I ∧ I ≤ b ∧ b < I + O ∧ ∀ e ∈ genes, ¬ (e.2.in_ = a ∧ e.2.out = b) := by
  have hcard : (genes.map (fun e => (e.2.in_, e.2.out))).toFinset.card
      < (Finset.range I ×ˢ Finset.Ico I (I + O)).card := by
    rw [Finset.card_product, Finset.card_range, Nat.card_Ico, Nat.add_sub_cancel_left]
    exact lt_of_le_of_lt (List.toFinset_card_le _) (by simpa using hlt)
  have hnot : ¬ (Finset.range I ×ˢ Finset.Ico I (I + O))
      ⊆ (genes.map (fun e => (e.2.in_, e.2.out))).toFinset :=
    fun hsub => absurd (Finset.card_le_card hsub) (not_le.mpr hcard)
  obtain ⟨p, hp, hnp⟩ := Finset.not_subset.mp hnot
  rw [Finset.mem_product, Finset.mem_range, Finset.mem_Ico] at hp
  refine ⟨p.1, p.2, hp.1, hp.2.1, hp.2.2, ?_⟩
  intro e he hpair
  apply hnp
  rw [List.mem_toFinset]
  exact List.mem_map.mpr ⟨e, he, by rw [hpair.1, hpair.2]⟩

theorem GeneInOut_false_of_absent (n : Network) (a b : Nat)
    (h : ∀ e ∈ n.genes, ¬ (e.2.in_ = a ∧ e.2.out = b)) : (n.GeneInOut a b).2 = false := by
  unfold Network.GeneInOut
  have : n.genes.find? (fun e => e.2.in_ == a && e.2.out == b) = none := by
    apply List.find?_eq_none.mpr
    intro e he hq
    exact h e he (by simpa using hq)
  rw [this]

theorem MutateAddGene_can_add (n : Network) (inno : Nat)
    (hends : ∀ e ∈ n.genes, e.2.in_ < n.config.inputs ∧ n.config.inputs ≤ e.2.out
      ∧ e.2.out < n.config.inputs + n.config.outputs)
    (hkeys : n.genes.map Prod.fst = List.range inno)
    (hlt : n.genes.length < n.config.inputs * n.config.outputs) :
    ∃ r1 r2 n1,
      (∀ rest, n.MutateAddGene inno (Rand.cons r1 (Rand.cons r2 (Rand.cons 0 rest)))
        = Except.ok (n1, inno + 1, rest))
      ∧ n1.config = n.config
      ∧ (∀ e ∈ n1.genes, e.2.in_ < n.config.inputs ∧ n.config.inputs ≤ e.2.out
          ∧ e.2.out < n.config.inputs + n.config.outputs)
      ∧ n1.genes.map Prod.fst = List.range (inno + 1) := by
  obtain ⟨a, b, ha, hb1, hb2, hfresh⟩ := exists_fresh_pair n.genes _ _ hlt
  have hain : a ∈ n.inOutNodes.1 := by
    rw [inOutNodes_eq, List.mem_filter]
    refine ⟨(mem_Nodes n a).mpr (Or.inl (by omega)), ?_⟩
    simp [Network.NodeType, ha]
  have hbout : b ∈ n.inOutNodes.2 := by
    rw [inOutNodes_eq, List.mem_filter]
    refine ⟨(mem_Nodes n b).mpr (Or.inl hb2), ?_⟩
    have : ¬ b < n.config.inputs := by omega
    simp [Network.NodeType, this, hb2]
  have hab : a ≠ b := by omega
  have hok1 : (n.GeneInOut a b).2 = false := GeneInOut_false_of_absent n a b hfresh
  have hok2 : (n.GeneInOut b a).2 = false := by
    apply GeneInOut_false_of_absent
    intro e he hq
    have := (hends e he).1
    omega
  have hhas : n.HasGene inno = false :=
    HasGene_false_of_not_mem n inno (by simp [hkeys])
  refine ⟨n.inOutNodes.1.indexOf a, n.inOutNodes.2.indexOf b,
    (n.AddGene inno a b (n.config.weightRange.Random (Rand.cons 0 zeroRand)).1).1, ?_,
    AddGene_config n inno a b _, ?_, ?_⟩
  · intro rest
    unfold Network.MutateAddGene Network.addGeneTries
    rw [RandomFrom_pick _ a hain]
    simp only
    rw [RandomFrom_pick _ b hbout]
    simp only [hab, hok1, hok2, ne_eq, not_false_eq_true, and_self, if_true]
    rfl
  · intro e he
    unfold Network.AddGene at he
    simp only [hhas, Bool.false_eq_true, if_false] at he
    rcases List.mem_append.mp he with he | he
    · exact hends e he
    · rw [List.mem_singleton.mp he]
      exact ⟨ha, hb1, hb2⟩
  · rw [keys_AddGene n inno a b _ hhas, hkeys, List.range_succ]

theorem seedGenes_returns (startingWeights : Int) (d : Nat) (seedNet : Network) (inno : Nat)
    (hends : ∀ e ∈ seedNet.genes, e.2.in_ < seedNet.config.inputs
      ∧ seedNet.config.inputs ≤ e.2.out
      ∧ e.2.out < seedNet.config.inputs + seedNet.config.outputs)
    (hkeys : seedNet.genes.map Prod.fst = List.range inno)
    (hd : (inno : Int) + d = startingWeights)
    (hsw : startingWeights
      ≤ ((seedNet.config.inputs * seedNet.config.outputs : Nat) : Int)) :
    ∃ fuel rnd r, seedGenes startingWeights fuel seedNet inno rnd = Except.ok r := by
  have hlen : seedNet.genes.length = inno := by
    have := congrArg List.length hkeys
    simpa using this
  induction d generalizing seedNet inno with
  | zero =>
    refine ⟨0, zeroRand, (seedNet, inno, zeroRand), ?_⟩
    unfold seedGenes
    have : ¬ ((seedNet.genes.length : Int) < startingWeights) := by omega
    simp only [this, if_false]
  | succ d ih =>
    have hlt : seedNet.genes.length < seedNet.config.inputs * seedNet.config.outputs := by
      omega
    obtain ⟨r1, r2, n1, hrun, hcfg, hends1, hkeys1⟩ :=
      MutateAddGene_can_add seedNet inno hends hkeys hlt
    have hlen1 : n1.genes.length = inno + 1 := by
      have := congrArg List.length hkeys1
      simpa using this
    obtain ⟨fuel, rnd, r, hr⟩ := ih n1 (inno + 1) (by rw [hcfg]; exact hends1) hkeys1
      (by push_cast; omega) (by rw [hcfg]; exact hsw) hlen1
    refine ⟨fuel + 1, Rand.cons r1 (Rand.cons r2 (Rand.cons 0 rnd)), r, ?_⟩
    unfold seedGenes
    have : (seedNet.genes.length : Int) < startingWeights := by omega
    simp only [this, if_true, hrun]
    exact hr

theorem NewNeat_returns (config : NeatConfig) (hsw0 : 0 ≤ config.startingWeights)
    (hsw : config.startingWeights
      ≤ ((config.networkConfig.inputs * config.networkConfig.outputs : Nat) : Int)) :
    ∃ fuel rnd r, NewNeat fuel config rnd = Except.ok r := by
  obtain ⟨fuel, rnd, r, hr⟩ := seedGenes_returns config.startingWeights
    config.startingWeights.toNat (NewNetwork config.networkConfig) 0
    (by intro e he; simp [NewNetwork] at he) rfl
    (by simpa using Int.toNat_of_nonneg hsw0) hsw
  obtain ⟨seedNet1, inno, rnd1⟩ := r
  refine ⟨fuel, rnd,
    ({ inno := inno, gen := 0, config := config,
       pop := (seedPop seedNet1 config.size.toNat [] rnd1).1 },
     (seedPop seedNet1 config.size.toNat [] rnd1).2), ?_⟩
  unfold NewNeat
  simp only [not_lt.mpr hsw, if_false, hr, gt_iff_lt]

theorem NewNeat_result (fuel : Nat) (config : NeatConfig) (rnd : Rand) (neat : Neat)
    (rnd1 : Rand) (hsize : 0 ≤ config.size) (hsw0 : 0 ≤ config.startingWeights)
    (_hsw : config.startingWeights
      ≤ ((config.networkConfig.inputs * config.networkConfig.outputs : Nat) : Int))
    (h : NewNeat fuel config rnd = Except.ok (neat, rnd1)) :
    (neat.pop.length : Int) = config.size
      ∧ (∀ g ∈ neat.pop, (g.genes.length : Int) = config.startingWeights
          ∧ g.genes.map Prod.fst = List.range config.startingWeights.toNat)
      ∧ neat.gen = 0 := by
  unfold NewNeat at h
  simp only at h
  split at h
  · exact absurd h (by simp)
  · split at h
    · exact absurd h (by simp)
    · rename_i seedNet1 inno rnd2 hseed
      obtain ⟨hkeys, hinno⟩ := seedGenes_keys config.startingWeights fuel
        (NewNetwork config.networkConfig) 0 rnd seedNet1 inno rnd2 rfl (by simpa using hsw0) hseed
      injection h with h
      have hneat := congrArg Prod.fst h
      simp only at hneat
      subst hneat
      obtain ⟨hlen, hmem⟩ := seedPop_spec seedNet1 config.size.toNat [] rnd2
      refine ⟨?_, ?_, rfl⟩
      · simp only [hlen, List.length_nil, zero_add]
        exact Int.toNat_of_nonneg hsize
      · intro g hg
        rcases hmem g hg with hnil | hk
        · simp at hnil
        · have htoNat : config.startingWeights.toNat = inno := by omega
          rw [htoNat, hk, hkeys]
          refine ⟨?_, rfl⟩
          have := congrArg List.length (hk.trans hkeys)
          simp only [List.length_map, List.length_range] at this
          omega

/-- C9: for a configuration with `size ≥ 0` and `0 ≤ startingWeights ≤ inputs * outputs`,
whenever `NewNeat` returns, under any outcome of the random choices, the population has
exactly `size` genomes, every genome has exactly `startingWeights` genes and their ids are
exactly `0, ..., startingWeights - 1`, and the generation counter is 0; and there are
random choices under which `NewNeat` does return. -/
theorem NewNeat_spec (config : NeatConfig) (hsize : 0 ≤ config.size)
    (hsw0 : 0 ≤ config.startingWeights)
    (hsw : config.startingWeights
      ≤ ((config.networkConfig.inputs * config.networkConfig.outputs : Nat) : Int)) :
    (∀ fuel rnd neat rnd1, NewNeat fuel config rnd = Except.ok (neat, rnd1) →
        (neat.pop.length : Int) = config.size
          ∧ (∀ g ∈ neat.pop, (g.genes.length : Int) = config.startingWeights
              ∧ g.genes.map Prod.fst = List.range config.startingWeights.toNat)
          ∧ neat.gen = 0)
      ∧ ∃ fuel rnd r, NewNeat fuel config rnd = Except.ok r :=
  ⟨fun fuel rnd neat rnd1 h => NewNeat_result fuel config rnd neat rnd1 hsize hsw0 hsw h,
    NewNeat_returns config hsw0 hsw⟩

/-- C9, at the configuration of `TestNet`: 4 inputs, 6 outputs, 5 starting genes and size
20; the run with the counting random source returns within 10 rounds of the seeding loop. -/
theorem NewNeat_spec_witness :
    ∃ r, NewNeat 10 (testConfig 1 1 1 20 5) countingRand = Except.ok r
      ∧ (r.1.pop.length : Int) = 20
      ∧ (∀ g ∈ r.1.pop, (g.genes.length : Int) = 5 ∧ g.genes.map Prod.fst = [0, 1, 2, 3, 4])
      ∧ r.1.gen = 0 :=
  have hok : faultOf (NewNeat 10 (testConfig 1 1 1 20 5) countingRand) = none := by decide!
  match hrun : NewNeat 10 (testConfig 1 1 1 20 5) countingRand with
  | .ok r => ⟨r, rfl,
      (NewNeat_spec (testConfig 1 1 1 20 5) (by decide) (by decide) (by decide)).1
        10 countingRand r.1 r.2 hrun⟩
  | .error f => absurd hok (by rw [hrun]; simp [faultOf])

/-! ## Genome queries and activation -/

/-- C11: `AddGene` returns an error exactly when the genome already has a gene with the
id; then the genome is unchanged; otherwise the genome afterwards has at the id an enabled
gene with the given source, target and weight, and every other id holds what it held. -/
theorem AddGene_spec (n : Network) (id a b : Nat) (w : ℚ) :
    ((n.AddGene id a b w).2.isSome = true ↔ n.HasGene id = true)
      ∧ (n.HasGene id = true → (n.AddGene id a b w).1 = n)
      ∧ (n.HasGene id = false →
          (n.AddGene id a b w).1.at? id = some ⟨true, a, b, w⟩
            ∧ (∀ j, j ≠ id → (n.AddGene id a b w).1.at? j = n.at? j)
            ∧ (n.AddGene id a b w).1.genes.map Prod.fst = n.genes.map Prod.fst ++ [id]) := by
  refine ⟨?_, ?_, ?_⟩
  · unfold Network.AddGene
    cases h : n.HasGene id <;> simp
  · intro h
    unfold Network.AddGene
    simp [h]
  · intro h
    refine ⟨?_, ?_, keys_AddGene n id a b w h⟩
    · rw [at?_AddGene n id a b w id h]; simp
    · intro j hj
      rw [at?_AddGene n id a b w j h]; simp [hj]

theorem foldl_max_ids (l : List (Nat × Gene)) (a : Nat) :
    a ≤ l.foldl (fun max e => if e.1 > max then e.1 else max) a
      ∧ (∀ e ∈ l, e.1 ≤ l.foldl (fun max e => if e.1 > max then e.1 else max) a)
      ∧ (l.foldl (fun max e => if e.1 > max then e.1 else max) a = a
          ∨ l.foldl (fun max e => if e.1 > max then e.1 else max) a ∈ l.map Prod.fst) := by
  induction l generalizing a with
  | nil => simp
  | cons x rest ih =>
    rw [List.foldl_cons]
    by_cases hxa : x.1 > a
    · simp only [hxa, if_true]
      obtain ⟨h1, h2, h3⟩ := ih x.1
      refine ⟨by omega, ?_, ?_⟩
      · intro e he
        rcases List.mem_cons.mp he with rfl | he
        · exact h1
        · exact h2 e he
      · rcases h3 with h3 | h3
        · right; rw [h3]; simp
        · right; simp only [List.map_cons, List.mem_cons]; exact Or.inr h3
    · simp only [hxa, if_false]
      obtain ⟨h1, h2, h3⟩ := ih a
      refine ⟨h1, ?_, ?_⟩
      · intro e he
        rcases List.mem_cons.mp he with rfl | he
        · omega
        · exact h2 e he
      · rcases h3 with h3 | h3
        · left; exact h3
        · right; simp only [List.map_cons, List.mem_cons]; exact Or.inr h3

theorem foldl_min_ids (l : List (Nat × Gene)) (a : Nat) :
    l.foldl (fun min e => if e.1 < min then e.1 else min) a ≤ a
      ∧ (∀ e ∈ l, l.foldl (fun min e => if e.1 < min then e.1 else min) a ≤ e.1)
      ∧ (l.foldl (fun min e => if e.1 < min then e.1 else min) a = a
          ∨ l.foldl (fun min e => if e.1 < min then e.1 else min) a ∈ l.map Prod.fst) := by
  induction l generalizing a with
  | nil => simp
  | cons x rest ih =>
    rw [List.foldl_cons]
    by_cases hxa : x.1 < a
    · simp only [hxa, if_true]
      obtain ⟨h1, h2, h3⟩ := ih x.1
      refine ⟨by omega, ?_, ?_⟩
      · intro e he
        rcases List.mem_cons.mp he with rfl | he
        · exact h1
        · exact h2 e he
      · rcases h3 with h3 | h3
        · right; rw [h3]; simp
        · right; simp only [List.map_cons, List.mem_cons]; exact Or.inr h3
    · simp only [hxa, if_false]
      obtain ⟨h1, h2, h3⟩ := ih a
      refine ⟨h1, ?_, ?_⟩
      · intro e he
        rcases List.mem_cons.mp he with rfl | he
        · omega
        · exact h2 e he
      · rcases h3 with h3 | h3
        · left; exact h3
        · right; simp only [List.map_cons, List.mem_cons]; exact Or.inr h3

/-- C13: `MaxId` and `MinId` are 0 on a genome without genes; on a genome with genes
`MaxId` is a gene id that no gene id exceeds and `MinId` is a gene id that no gene id is
below. -/
theorem MaxId_MinId_spec (n : Network) :
    (n.genes = [] → n.MaxId = 0 ∧ n.MinId = 0)
      ∧ (n.genes ≠ [] →
          (n.MaxId ∈ n.genes.map Prod.fst ∧ ∀ id ∈ n.genes.map Prod.fst, id ≤ n.MaxId)
            ∧ (n.MinId ∈ n.genes.map Prod.fst ∧ ∀ id ∈ n.genes.map Prod.fst, n.MinId ≤ id)) := by
  refine ⟨?_, ?_⟩
  · intro h
    simp [Network.MaxId, Network.MinId, h]
  · intro hne
    obtain ⟨e0, he0⟩ := List.exists_mem_of_ne_nil _ hne
    obtain ⟨_, hmax, hmaxmem⟩ := foldl_max_ids n.genes 0
    have hMax : n.MaxId ∈ n.genes.map Prod.fst := by
      rcases hmaxmem with h0 | h
      · have hle := hmax e0 he0
        have : e0.1 = n.MaxId := by
          unfold Network.MaxId
          omega
        rw [← this]
        exact List.mem_map_of_mem Prod.fst he0
      · exact h
    obtain ⟨_, hmin, hminmem⟩ := foldl_min_ids n.genes n.MaxId
    refine ⟨⟨hMax, ?_⟩, ?_, ?_⟩
    · intro id hid
      obtain ⟨e, he, rfl⟩ := List.mem_map.mp hid
      exact hmax e he
    · rcases hminmem with h0 | h
      · unfold Network.MinId
        rw [h0]; exact hMax
      · exact h
    · intro id hid
      obtain ⟨e, he, rfl⟩ := List.mem_map.mp hid
      exact hmin e he

/-- C14: `Nodes` lists each id once, and an id is listed exactly when it is below
`inputs + outputs` or is the source or the target of a gene; on a genome without genes the
listed ids are exactly those below `inputs + outputs`. -/
theorem Nodes_spec (n : Network) :
    n.Nodes.Nodup
      ∧ (∀ v, v ∈ n.Nodes ↔ v < n.config.inputs + n.config.outputs
          ∨ ∃ e ∈ n.genes, v = e.2.in_ ∨ v = e.2.out)
      ∧ (n.genes = [] → ∀ v, v ∈ n.Nodes ↔ v < n.config.inputs + n.config.outputs) := by
  refine ⟨List.nodup_dedup _, mem_Nodes n, ?_⟩
  intro h v
  rw [mem_Nodes, h]
  simp

/-- C12: `activate` panics when the number of supplied inputs differs from the configured
input count, and otherwise returns a sequence of exactly `outputs` values. -/
theorem activate_arity (n : Network) (inputs : List ℚ) :
    (inputs.length ≠ n.config.inputs →
        n.activate inputs = Except.error (Fault.panic "Wrong number of inputs"))
      ∧ (inputs.length = n.config.inputs →
        ∃ outputs, n.activate inputs = Except.ok outputs
          ∧ outputs.length = n.config.outputs) := by
  refine ⟨?_, ?_⟩
  · intro h
    unfold Network.activate
    simp [h]
  · intro h
    unfold Network.activate
    simp [h]

theorem foldl_set_zero (l : List Nat) (m0 : NodeMap) (k : Nat) :
    (l.foldl (fun (m : NodeMap) node => m.set node 0) m0) k
      = if k ∈ l then some 0 else m0 k := by
  induction l generalizing m0 with
  | nil => simp
  | cons x rest ih =>
    rw [List.foldl_cons, ih]
    by_cases hk : k ∈ rest
    · simp [hk]
    · by_cases hx : k = x
      · simp [hk, hx, NodeMap.set]
      · simp [hk, hx, NodeMap.set]

theorem foldl_set_inputs (xs : List ℚ) (count : Nat) (m0 : NodeMap) (k : Nat) :
    ((List.range count).foldl (fun (m : NodeMap) i => m.set i (xs[i]?.getD 0)) m0) k
      = if k < count then some (xs[k]?.getD 0) else m0 k := by
  induction count with
  | zero => simp
  | succ count ih =>
    rw [List.range_succ, List.foldl_append, List.foldl_cons, List.foldl_nil]
    by_cases hk : k = count
    · subst hk; simp [NodeMap.set]
    · have h1 : (k < count + 1) = (k < count) := by
        apply propext; omega
      simp only [NodeMap.set, hk, if_false, ih, h1]

theorem foldl_GenesInto_eq_sum (n : Network) (xs : List ℚ) (j : Nat) :
    (n.GenesInto j).foldl
        (fun val gene => if gene.enabled then val + gene.weight * xs[gene.in_]?.getD 0 else val) 0
      = ((n.genes.filter (fun e => e.2.enabled && e.2.out == j)).map
          (fun e => e.2.weight * xs[e.2.in_]?.getD 0)).sum := by
  unfold Network.GenesInto
  have key : ∀ (l : List (Nat × Gene)) (a : ℚ),
      ((l.filter (fun e => e.2.out == j)).map Prod.snd).foldl
          (fun val gene => if gene.enabled then val + gene.weight * xs[gene.in_]?.getD 0 else val) a
        = a + ((l.filter (fun e => e.2.enabled && e.2.out == j)).map
            (fun e => e.2.weight * xs[e.2.in_]?.getD 0)).sum := by
    intro l
    induction l with
    | nil => intro a; simp
    | cons x rest ih =>
      intro a
      by_cases ho : x.2.out = j
      · by_cases he : x.2.enabled = true
        · simp [List.filter_cons, ho, he, ih, add_assoc]
        · simp [List.filter_cons, ho, he, ih]
      · simp [List.filter_cons, ho, ih]
  rw [key, zero_add]

theorem activateNode_clamped (n : Network) (xs : List ℚ) (m : NodeMap) (j : Nat)
    (hends : ∀ e ∈ n.genes, e.2.in_ < n.config.inputs)
    (hq : ∀ i, i < n.config.inputs → m i = some (xs[i]?.getD 0)) :
    n.activateNode m j
      = if (m j).isSome then
          m.set j (n.config.squash (((n.genes.filter (fun e => e.2.enabled && e.2.out == j)).map
            (fun e => e.2.weight * xs[e.2.in_]?.getD 0)).sum))
        else m := by
  unfold Network.activateNode
  split
  · have hfold : (n.GenesInto j).foldl
          (fun val gene => if gene.enabled then val + gene.weight * m.get gene.in_ else val) 0
        = (n.GenesInto j).foldl
          (fun val gene => if gene.enabled then val + gene.weight * xs[gene.in_]?.getD 0
            else val) 0 := by
      apply List.foldl_ext
      intro a gene hgene
      unfold Network.GenesInto at hgene
      obtain ⟨e, he, rfl⟩ := List.mem_map.mp hgene
      have hin := hends e (List.mem_filter.mp he).1
      simp only [NodeMap.get, hq _ hin, Option.getD_some]
    simp only
    rw [hfold, foldl_GenesInto_eq_sum]
  · rfl

theorem foldl_activateNode (n : Network) (xs : List ℚ) (nodes : List Nat) (m : NodeMap)
    (hends : ∀ e ∈ n.genes, e.2.in_ < n.config.inputs)
    (hnodes : ∀ j ∈ nodes, n.config.inputs ≤ j)
    (hq : ∀ i, i < n.config.inputs → m i = some (xs[i]?.getD 0)) :
    (∀ i, i < n.config.inputs → (nodes.foldl n.activateNode m) i = some (xs[i]?.getD 0))
      ∧ ∀ k, (nodes.foldl n.activateNode m) k
          = if k ∈ nodes ∧ (m k).isSome = true then
              some (n.config.squash (((n.genes.filter
                (fun e => e.2.enabled && e.2.out == k)).map
                  (fun e => e.2.weight * xs[e.2.in_]?.getD 0)).sum))
            else m k := by
  induction nodes generalizing m with
  | nil => exact ⟨hq, by simp⟩
  | cons j rest ih =>
    have hj : n.config.inputs ≤ j := hnodes j (List.mem_cons_self _ _)
    have hstep := activateNode_clamped n xs m j hends hq
    have hq1 : ∀ i, i < n.config.inputs → (n.activateNode m j) i = some (xs[i]?.getD 0) := by
      intro i hi
      rw [hstep]
      split
      · have : i ≠ j := by omega
        simp only [NodeMap.set, this, if_false]; exact hq i hi
      · exact hq i hi
    obtain ⟨h1, h2⟩ := ih (n.activateNode m j)
      (fun x hx => hnodes x (List.mem_cons_of_mem _ hx)) hq1
    rw [List.foldl_cons]
    refine ⟨h1, ?_⟩
    intro k
    rw [h2 k, hstep]
    by_cases hkj : k = j
    · subst hkj
      cases hs : (m k).isSome
      · simp [hs]
      · simp [hs, NodeMap.set]
    · by_cases hs : (m j).isSome = true
      · simp [hs, NodeMap.set, hkj]
      · simp [hs, hkj]

theorem activatePass_spec (n : Network) (xs : List ℚ) (m : NodeMap)
    (hin : 0 < n.config.inputs) (h64 : n.config.inputs < 2 ^ 64)
    (hends : ∀ e ∈ n.genes, e.2.in_ < n.config.inputs)
    (hq : ∀ i, i < n.config.inputs → m i = some (xs[i]?.getD 0))
    (hsome : ∀ v, v ∈ n.Nodes → (m v).isSome = true) :
    (∀ i, i < n.config.inputs → (n.activatePass m) i = some (xs[i]?.getD 0))
      ∧ (∀ v, v ∈ n.Nodes → ((n.activatePass m) v).isSome = true)
      ∧ ∀ v, v ∈ n.Nodes → n.config.inputs ≤ v →
          (n.activatePass m) v = some (n.config.squash (((n.genes.filter
            (fun e => e.2.enabled && e.2.out == v)).map
              (fun e => e.2.weight * xs[e.2.in_]?.getD 0)).sum)) := by
  have hbound : (n.config.inputs + (2 ^ 64 - 1)) % 2 ^ 64 = n.config.inputs - 1 := by
    omega
  have hmem : ∀ j, j ∈ (List.range' (n.config.inputs - 1 + 1)
      (n.MaxNode - (n.config.inputs - 1))).reverse ↔ n.config.inputs ≤ j ∧ j ≤ n.MaxNode := by
    intro j
    rw [List.mem_reverse, List.mem_range'_1]
    omega
  obtain ⟨h1, h2⟩ := foldl_activateNode n xs
    (List.range' (n.config.inputs - 1 + 1) (n.MaxNode - (n.config.inputs - 1))).reverse m hends
    (fun j hj => ((hmem j).mp hj).1) hq
  unfold Network.activatePass
  simp only [hbound]
  refine ⟨h1, ?_, ?_⟩
  · intro v hv
    rw [h2 v]
    split
    · rfl
    · exact hsome v hv
  · intro v hv hle
    have hmax : v ≤ n.MaxNode := (foldl_max_spec n.Nodes 0).2.1 v hv
    rw [h2 v, if_pos ⟨(hmem v).mpr ⟨hle, hmax⟩, hsome v hv⟩]

/-- C18: with at least one input and at least one evaluation iteration, on a genome whose
genes all run from an input node to an output node and an input sequence of the configured
length, `activate` returns, for each `j` below `outputs`, the squash function applied to
the sum of `weight * inputs[source]` over the enabled genes whose target is node
`inputs + j`. -/
theorem activate_feedforward (n : Network) (xs : List ℚ)
    (hin : 0 < n.config.inputs) (h64 : n.config.inputs < 2 ^ 64)
    (hiter : 0 < n.config.evalIterations)
    (hends : ∀ e ∈ n.genes, e.2.in_ < n.config.inputs ∧ n.config.inputs ≤ e.2.out
      ∧ e.2.out < n.config.inputs + n.config.outputs)
    (hlen : xs.length = n.config.inputs) :
    n.activate xs = Except.ok ((List.range n.config.outputs).map (fun j =>
      n.config.squash (((n.genes.filter
        (fun e => e.2.enabled && e.2.out == n.config.inputs + j)).map
          (fun e => e.2.weight * xs[e.2.in_]?.getD 0)).sum))) := by
  have hends1 : ∀ e ∈ n.genes, e.2.in_ < n.config.inputs := fun e he => (hends e he).1
  -- the node values before the first iteration
  have hq0 : ∀ i, i < n.config.inputs →
      ((List.range n.config.inputs).foldl (fun (m : NodeMap) i => m.set i (xs[i]?.getD 0))
        (n.Nodes.foldl (fun (m : NodeMap) node => m.set node 0) (fun _ => none))) i
        = some (xs[i]?.getD 0) := by
    intro i hi
    rw [foldl_set_inputs, if_pos hi]
  have hs0 : ∀ v, v ∈ n.Nodes →
      (((List.range n.config.inputs).foldl (fun (m : NodeMap) i => m.set i (xs[i]?.getD 0))
        (n.Nodes.foldl (fun (m : NodeMap) node => m.set node 0) (fun _ => none))) v).isSome
        = true := by
    intro v hv
    rw [foldl_set_inputs, foldl_set_zero, if_pos hv]
    split <;> rfl
  -- every number of iterations keeps the inputs clamped and the nodes present
  have hiterate : ∀ (k : Nat) (m : NodeMap),
      (∀ i, i < n.config.inputs → m i = some (xs[i]?.getD 0)) →
      (∀ v, v ∈ n.Nodes → (m v).isSome = true) →
      (∀ i, i < n.config.inputs →
        ((List.range k).foldl (fun m _ => n.activatePass m) m) i = some (xs[i]?.getD 0))
      ∧ (∀ v, v ∈ n.Nodes →
        (((List.range k).foldl (fun m _ => n.activatePass m) m) v).isSome = true) := by
    intro k
    induction k with
    | zero => intro m hq hs; exact ⟨hq, hs⟩
    | succ k ih =>
      intro m hq hs
      rw [List.range_succ, List.foldl_append, List.foldl_cons, List.foldl_nil]
      obtain ⟨hq1, hs1⟩ := ih m hq hs
      obtain ⟨a, b, _⟩ := activatePass_spec n xs _ hin h64 hends1 hq1 hs1
      exact ⟨a, b⟩
  obtain ⟨k, hk⟩ : ∃ k, n.config.evalIterations = k + 1 := ⟨n.config.evalIterations - 1, by omega⟩
  unfold Network.activate
  simp only [hlen, ne_eq, not_true_eq_false, if_false, hk]
  rw [List.range_succ, List.foldl_append, List.foldl_cons, List.foldl_nil]
  obtain ⟨hq1, hs1⟩ := hiterate k _ hq0 hs0
  obtain ⟨_, _, hout⟩ := activatePass_spec n xs _ hin h64 hends1 hq1 hs1
  simp only [Except.ok.injEq]
  rw [List.range'_eq_map_range, List.map_map]
  apply List.map_congr_left
  intro j hj
  have hj1 : j < n.config.outputs := List.mem_range.mp hj
  have hlt : n.config.inputs + j < n.config.inputs + n.config.outputs :=
    Nat.add_lt_add_left hj1 _
  have hmemN : n.config.inputs + j ∈ n.Nodes := (mem_Nodes n _).mpr (Or.inl hlt)
  have hval := hout (n.config.inputs + j) hmemN (Nat.le_add_right _ _)
  rw [Function.comp_apply]
  unfold NodeMap.get
  rw [hval, Option.getD_some]

/-- C18, at a genome with three enabled genes and one disabled gene: the outputs are
`2 * 1 + 3 * 2`, `-1 * 4` and four times the squash of the empty sum. -/
theorem activate_feedforward_witness :
    genomeFeed.activate [1, 2, 3, 4] = Except.ok [8, -4, 0, 0, 0, 0] :=
  (activate_feedforward genomeFeed [1, 2, 3, 4] (by decide) (by norm_num [genomeFeed, genomeOf,
    testNetworkConfig]) (by decide) (by decide) rfl).trans (congrArg Except.ok (by decide!))

/-! ## The clustering loop of speciation -/

theorem joinFirst_none (neat : Neat) (network : Network) (sl : List Species)
    (h : neat.joinFirst network sl = none) :
    ∀ s ∈ sl, ∀ r, s.Rep = some r →
      ¬ neat.Distance network r ≤ neat.config.threshold := by
  induction sl with
  | nil => intro s hs; simp at hs
  | cons species rest ih =>
    unfold Neat.joinFirst at h
    intro s hs r hr
    split at h
    · rename_i rep hrep
      split at h
      · exact absurd h (by simp)
      · rename_i hnot
        rcases List.mem_cons.mp hs with rfl | hs
        · rw [hrep] at hr
          injection hr with hr
          rw [← hr]; exact hnot
        · exact ih (by simpa using h) s hs r hr
    · rename_i hrep
      rcases List.mem_cons.mp hs with rfl | hs
      · rw [hrep] at hr; exact absurd hr (by simp)
      · exact ih (by simpa using h) s hs r hr

theorem joinFirst_some (neat : Neat) (network : Network) (sl joined : List Species)
    (h : neat.joinFirst network sl = some joined) :
    ∃ pre s post r, sl = pre ++ s :: post
      ∧ joined = pre ++ { s with orgs := s.orgs ++ [network] } :: post
      ∧ s.Rep = some r ∧ neat.Distance network r ≤ neat.config.threshold
      ∧ ∀ s1 ∈ pre, ∀ r1, s1.Rep = some r1 →
          ¬ neat.Distance network r1 ≤ neat.config.threshold := by
  induction sl generalizing joined with
  | nil => simp [Neat.joinFirst] at h
  | cons species rest ih =>
    have hrec : ∀ joined,
        (neat.joinFirst network rest).map (fun r => species :: r) = some joined →
        (∀ r1, species.Rep = some r1 →
          ¬ neat.Distance network r1 ≤ neat.config.threshold) →
        ∃ pre s post r, species :: rest = pre ++ s :: post
          ∧ joined = pre ++ { s with orgs := s.orgs ++ [network] } :: post
          ∧ s.Rep = some r ∧ neat.Distance network r ≤ neat.config.threshold
          ∧ ∀ s1 ∈ pre, ∀ r1, s1.Rep = some r1 →
              ¬ neat.Distance network r1 ≤ neat.config.threshold := by
      intro joined hj hsp
      obtain ⟨j0, hj0, rfl⟩ := Option.map_eq_some'.mp hj
      obtain ⟨pre, s, post, r, h1, h2, h3, h4, h5⟩ := ih j0 hj0
      refine ⟨species :: pre, s, post, r, by rw [h1]; rfl, by rw [h2]; rfl, h3, h4, ?_⟩
      intro s1 hs1 r1 hr1
      rcases List.mem_cons.mp hs1 with rfl | hs1
      · exact hsp r1 hr1
      · exact h5 s1 hs1 r1 hr1
    unfold Neat.joinFirst at h
    split at h
    · rename_i rep hrep
      split at h
      · rename_i hle
        injection h with h
        exact ⟨[], species, rest, rep, rfl, h.symm, hrep, hle, by simp⟩
      · rename_i hnot
        apply hrec joined h
        intro r1 hr1
        rw [hrep] at hr1
        injection hr1 with hr1
        rw [← hr1]; exact hnot
    · rename_i hrep
      apply hrec joined h
      intro r1 hr1
      rw [hrep] at hr1; exact absurd hr1 (by simp)

/-- Induction along the clustering loop: `done` is the part of the population already
placed, and a genome either joins the first species whose representative is within the
threshold or founds a new species. -/
theorem cluster_induction (neat : Neat) (P : List Network → List Species → Prop)
    (h0 : P [] [])
    (hjoin : ∀ done pre s post r x, P done (pre ++ s :: post) → s.Rep = some r →
      neat.Distance x r ≤ neat.config.threshold →
      (∀ s1 ∈ pre, ∀ r1, s1.Rep = some r1 →
        ¬ neat.Distance x r1 ≤ neat.config.threshold) →
      P (done ++ [x]) (pre ++ { s with orgs := s.orgs ++ [x] } :: post))
    (hnew : ∀ done sl x, P done sl →
      (∀ s ∈ sl, ∀ r, s.Rep = some r → ¬ neat.Distance x r ≤ neat.config.threshold) →
      P (done ++ [x]) (sl ++ [NewSpecies x]))
    (pop : List Network) : P pop (neat.cluster pop) := by
  have key : ∀ (l done : List Network) (sl : List Species), P done sl →
      P (done ++ l) (l.foldl
        (fun speciesList network =>
          match neat.joinFirst network speciesList with
          | some joined => joined
          | none => speciesList ++ [NewSpecies network]) sl) := by
    intro l
    induction l with
    | nil => intro done sl h; simpa using h
    | cons x rest ih =>
      intro done sl h
      rw [List.foldl_cons]
      have hstep : P (done ++ [x])
          (match neat.joinFirst x sl with
            | some joined => joined
            | none => sl ++ [NewSpecies x]) := by
        cases hj : neat.joinFirst x sl with
        | some joined =>
          obtain ⟨pre, s, post, r, h1, h2, h3, h4, h5⟩ := joinFirst_some neat x sl joined hj
          simp only
          rw [h2]
          exact hjoin done pre s post r x (h1 ▸ h) h3 h4 h5
        | none => exact hnew done sl x h (joinFirst_none neat x sl hj)
      have := ih (done ++ [x]) _ hstep
      simpa using this
  have := key pop [] [] h0
  simpa [Neat.cluster] using this

theorem cluster_inv (neat : Neat) (pop : List Network) :
    (∀ s ∈ neat.cluster pop, ∃ r rest, s.orgs = r :: rest
        ∧ ∀ g ∈ rest, neat.Distance g r ≤ neat.config.threshold)
      ∧ ((neat.cluster pop).flatMap (fun s => s.orgs)).Perm pop
      ∧ (∀ s ∈ neat.cluster pop, s.orgs.Sublist pop)
      ∧ (neat.cluster pop).Pairwise (fun s1 s => ∀ r1, s1.Rep = some r1 →
          ∀ g ∈ s.orgs, neat.config.threshold < neat.Distance g r1) := by
  apply cluster_induction neat (fun done sl =>
    (∀ s ∈ sl, ∃ r rest, s.orgs = r :: rest
        ∧ ∀ g ∈ rest, neat.Distance g r ≤ neat.config.threshold)
      ∧ (sl.flatMap (fun s => s.orgs)).Perm done
      ∧ (∀ s ∈ sl, s.orgs.Sublist done)
      ∧ sl.Pairwise (fun s1 s => ∀ r1, s1.Rep = some r1 →
          ∀ g ∈ s.orgs, neat.config.threshold < neat.Distance g r1))
  · exact ⟨by simp, by simp, by simp, List.Pairwise.nil⟩
  · intro done pre s post r x ⟨hhead, hperm, hsub, hpw⟩ hrep hle hpre
    obtain ⟨r0, rest0, hs0, hrest0⟩ := hhead s (by simp)
    have hr : r0 = r := by
      simp only [Species.Rep, hs0, List.head?_cons] at hrep
      exact Option.some.inj hrep
    subst hr
    refine ⟨?_, ?_, ?_, ?_⟩
    · intro s1 hs1
      rcases List.mem_append.mp hs1 with h | h
      · exact hhead s1 (List.mem_append_left _ h)
      · rcases List.mem_cons.mp h with rfl | h
        · refine ⟨r0, rest0 ++ [x], by simp [hs0], ?_⟩
          intro g hg
          rcases List.mem_append.mp hg with hg | hg
          · exact hrest0 g hg
          · rw [List.mem_singleton.mp hg]; exact hle
        · exact hhead s1 (List.mem_append_right _ (List.mem_cons_of_mem _ h))
    · have h1 : (pre ++ { s with orgs := s.orgs ++ [x] } :: post).flatMap (fun s => s.orgs)
          = pre.flatMap (fun s => s.orgs)
            ++ (s.orgs ++ (x :: post.flatMap (fun s => s.orgs))) := by
        simp [List.flatMap_append, List.flatMap_cons]
      have h2 : (pre ++ s :: post).flatMap (fun s => s.orgs)
          = pre.flatMap (fun s => s.orgs) ++ (s.orgs ++ post.flatMap (fun s => s.orgs)) := by
        simp [List.flatMap_append, List.flatMap_cons]
      rw [h1]
      rw [h2] at hperm
      have h3 : (pre.flatMap (fun s => s.orgs)
            ++ (s.orgs ++ (x :: post.flatMap (fun s => s.orgs)))).Perm
          (x :: (pre.flatMap (fun s => s.orgs)
            ++ (s.orgs ++ post.flatMap (fun s => s.orgs)))) := by
        rw [← List.append_assoc, ← List.append_assoc]
        exact List.perm_middle
      exact h3.trans ((List.Perm.cons x hperm).trans (List.perm_append_singleton x done).symm)
    · intro s1 hs1
      rcases List.mem_append.mp hs1 with h | h
      · exact (hsub s1 (List.mem_append_left _ h)).trans (List.sublist_append_left _ _)
      · rcases List.mem_cons.mp h with rfl | h
        · exact List.Sublist.append (hsub s (by simp)) (List.Sublist.refl _)
        · exact (hsub s1 (List.mem_append_right _ (List.mem_cons_of_mem _ h))).trans
            (List.sublist_append_left _ _)
    · rw [List.pairwise_append, List.pairwise_cons] at hpw ⊢
      obtain ⟨hp1, ⟨hp2, hp3⟩, hp4⟩ := hpw
      refine ⟨hp1, ⟨?_, hp3⟩, ?_⟩
      · intro b hb r1 hr1 g hg
        have : s.Rep = some r1 := by
          simp only [Species.Rep, hs0, List.head?_cons] at hr1 ⊢
          simpa using hr1
        exact hp2 b hb r1 this g hg
      · intro a ha b hb
        rcases List.mem_cons.mp hb with rfl | hb
        · intro r1 hr1 g hg
          rcases List.mem_append.mp hg with hg | hg
          · exact hp4 a ha s (by simp) r1 hr1 g hg
          · rw [List.mem_singleton.mp hg]
            exact not_le.mp (hpre a ha r1 hr1)
        · exact hp4 a ha b (List.mem_cons_of_mem _ hb)
  · intro done sl x ⟨hhead, hperm, hsub, hpw⟩ hnone
    refine ⟨?_, ?_, ?_, ?_⟩
    · intro s hs
      rcases List.mem_append.mp hs with h | h
      · exact hhead s h
      · rw [List.mem_singleton.mp h]
        exact ⟨x, [], rfl, by simp⟩
    · rw [List.flatMap_append]
      simpa [NewSpecies] using List.Perm.append_right [x] hperm
    · intro s hs
      rcases List.mem_append.mp hs with h | h
      · exact (hsub s h).trans (List.sublist_append_left _ _)
      · rw [List.mem_singleton.mp h]
        exact List.sublist_append_right _ _
    · rw [List.pairwise_append]
      refine ⟨hpw, List.pairwise_singleton _ _, ?_⟩
      intro a ha b hb r1 hr1 g hg
      rw [List.mem_singleton.mp hb] at hg
      simp only [NewSpecies, List.nil_append, List.mem_singleton] at hg
      rw [hg]
      exact not_le.mp (hnone a ha r1 hr1)

theorem SortByFitness_head (group : List Network) (r : Network)
    (h : (SortByFitness group).head? = some r) :
    r ∈ group ∧ ∀ g ∈ group, g.fitness ≤ r.fitness := by
  haveI : IsTotal Network (fun a b => decide (b.fitness > a.fitness) = false) :=
    ⟨fun a b => by
      simp only [decide_eq_false_iff_not, not_lt]
      exact le_total _ _⟩
  haveI : IsTrans Network (fun a b => decide (b.fitness > a.fitness) = false) :=
    ⟨fun a b c hab hbc => by
      simp only [decide_eq_false_iff_not, not_lt, gt_iff_lt] at hab hbc ⊢
      exact le_trans hbc hab⟩
  have hsorted := List.sorted_insertionSort
    (fun a b : Network => decide (b.fitness > a.fitness) = false) group
  have hperm := sortSlice_perm (fun a b : Network => decide (a.fitness > b.fitness)) group
  unfold SortByFitness at h
  unfold sortSlice at h hperm
  cases hl : List.insertionSort (fun a b : Network => decide (b.fitness > a.fitness) = false)
      group with
  | nil => rw [hl] at h; simp at h
  | cons x rest =>
    rw [hl] at h hsorted hperm
    simp only [List.head?_cons, Option.some.injEq] at h
    subst h
    refine ⟨hperm.mem_iff.mp (List.mem_cons_self _ _), ?_⟩
    intro g hg
    rcases List.mem_cons.mp (hperm.mem_iff.mpr hg) with rfl | hg
    · exact le_refl _
    · have := List.rel_of_sorted_cons hsorted g hg
      simpa using this

/-- C15 (as amended): while `Speciate` clusters, before it shares the fitness and sorts the
members, every species has a representative, it is the first of the members, and the
members are listed in population order, so it is the first genome of the population
assigned to the species; in the list that `Speciate` returns the representative is a
member of the species whose raw fitness no member exceeds. -/
theorem Speciate_Rep (neat : Neat) :
    (∀ s ∈ neat.cluster neat.pop, ∃ r rest, s.orgs = r :: rest ∧ s.Rep = some r
        ∧ (r :: rest).Sublist neat.pop)
      ∧ ∀ s ∈ neat.Speciate, ∃ r, s.Rep = some r ∧ r ∈ s.orgs
          ∧ ∀ g ∈ s.orgs, g.fitness ≤ r.fitness := by
  obtain ⟨hhead, _, hsub, _⟩ := cluster_inv neat neat.pop
  refine ⟨?_, ?_⟩
  · intro s hs
    obtain ⟨r, rest, hr, _⟩ := hhead s hs
    exact ⟨r, rest, hr, by simp [Species.Rep, hr], hr ▸ hsub s hs⟩
  · intro s hs
    unfold Neat.Speciate at hs
    rw [mem_sortSlice] at hs
    obtain ⟨s0, hs0, rfl⟩ := List.mem_map.mp hs
    obtain ⟨hlen, _, _⟩ := shareFitness_spec s0
    have hne : (shareFitness s0).orgs ≠ [] := by
      intro hnil
      rw [hnil, List.length_nil] at hlen
      exact cluster_orgs_ne_nil neat neat.pop s0 hs0 (List.length_eq_zero.mp hlen.symm)
    obtain ⟨r, hr⟩ : ∃ r, (shareFitness s0).orgs.head? = some r := by
      cases hl : (shareFitness s0).orgs with
      | nil => exact absurd hl hne
      | cons x rest => exact ⟨x, rfl⟩
    have hh := SortByFitness_head _ r hr
    have hperm := sortSlice_perm (fun a b : Network => decide (a.fitness > b.fitness))
      (s0.orgs.map (fun org =>
        { org with adjustedFitness := org.fitness / (s0.orgs.length : ℚ) }))
    refine ⟨r, hr, ?_, ?_⟩
    · exact (hperm.mem_iff.mpr hh.1)
    · intro g hg
      exact hh.2 g (hperm.mem_iff.mp hg)

/-- C15 (the claim as stated fails): in `threeNeat` the species that `Speciate` returns
for the genomes of fitness 1 and 3 has the genome of fitness 3 as representative, while
the first genome of the population that is a member of it has fitness 1. -/
theorem Speciate_Rep_not_first_assigned :
    ∃ s ∈ threeNeat.Speciate,
      s.Rep.map (fun g => g.fitness) = some 3
        ∧ (firstAssigned threeNeat.pop s).map (fun g => g.fitness) = some 1 := by
  decide!

/-- C16: the species built by the clustering loop of `Speciate`, in creation order, are the
species it returns, up to fitness sharing and order, and they hold every genome of the
population once. In each species `S` every member other than the first one, `r(S)`, is
within the threshold of `r(S)`, and every member of `S`, `r(S)` included, is farther than
the threshold from the first member of every species created before `S`. So every genome
`g` of the population has a species `S` with `g = r(S)` or `Distance(g, r(S)) ≤ threshold`
and `Distance(g, r(S1)) > threshold` for every species `S1` created before `S`. -/
theorem Speciate_greedy (neat : Neat) :
    neat.Speciate.Perm ((neat.cluster neat.pop).map shareFitness)
      ∧ ((neat.cluster neat.pop).flatMap (fun s => s.orgs)).Perm neat.pop
      ∧ (∀ pre S post, neat.cluster neat.pop = pre ++ S :: post →
          ∃ r rest, S.orgs = r :: rest ∧ S.Rep = some r
            ∧ (∀ g ∈ rest, neat.Distance g r ≤ neat.config.threshold)
            ∧ ∀ g ∈ S.orgs, ∀ S1 ∈ pre, ∃ r1, S1.Rep = some r1
                ∧ neat.config.threshold < neat.Distance g r1)
      ∧ ∀ g ∈ neat.pop, ∃ pre S post r rest, neat.cluster neat.pop = pre ++ S :: post
          ∧ S.orgs = r :: rest ∧ g ∈ S.orgs
          ∧ (g = r ∨ neat.Distance g r ≤ neat.config.threshold)
          ∧ ∀ S1 ∈ pre, ∃ r1, S1.Rep = some r1
              ∧ neat.config.threshold < neat.Distance g r1 := by
  obtain ⟨hhead, hperm, _, hpw⟩ := cluster_inv neat neat.pop
  have hdecomp : ∀ pre S post, neat.cluster neat.pop = pre ++ S :: post →
      ∃ r rest, S.orgs = r :: rest ∧ S.Rep = some r
        ∧ (∀ g ∈ rest, neat.Distance g r ≤ neat.config.threshold)
        ∧ ∀ g ∈ S.orgs, ∀ S1 ∈ pre, ∃ r1, S1.Rep = some r1
            ∧ neat.config.threshold < neat.Distance g r1 := by
    intro pre S post hsl
    rw [hsl] at hhead hpw
    obtain ⟨r, rest, hr, hrest⟩ := hhead S (by simp)
    refine ⟨r, rest, hr, by simp [Species.Rep, hr], hrest, ?_⟩
    intro g hg S1 hS1
    obtain ⟨r1, rest1, hr1, _⟩ := hhead S1 (List.mem_append_left _ hS1)
    have hrep1 : S1.Rep = some r1 := by simp [Species.Rep, hr1]
    rw [List.pairwise_append] at hpw
    exact ⟨r1, hrep1, hpw.2.2 S1 hS1 S (List.mem_cons_self _ _) r1 hrep1 g hg⟩
  refine ⟨sortSlice_perm _ _, hperm, hdecomp, ?_⟩
  intro g hg
  obtain ⟨S, hS, hgS⟩ := List.mem_flatMap.mp (hperm.mem_iff.mpr hg)
  obtain ⟨pre, post, hsl⟩ := List.append_of_mem hS
  obtain ⟨r, rest, hr, _, hrest, hbefore⟩ := hdecomp pre S post hsl
  refine ⟨pre, S, post, r, rest, hsl, hr, hgS, ?_, hbefore g hgS⟩
  rw [hr] at hgS
  rcases List.mem_cons.mp hgS with h | h
  · exact Or.inl h
  · exact Or.inr (hrest g h)

theorem Speciate_orgs_ne_nil (neat : Neat) (s : Species) (hs : s ∈ neat.Speciate) :
    s.orgs ≠ [] := by
  unfold Neat.Speciate at hs
  rw [mem_sortSlice] at hs
  obtain ⟨s0, hs0, rfl⟩ := List.mem_map.mp hs
  obtain ⟨hlen, _, _⟩ := shareFitness_spec s0
  intro hnil
  rw [hnil, List.length_nil] at hlen
  exact cluster_orgs_ne_nil neat neat.pop s0 hs0 (List.length_eq_zero.mp hlen.symm)

theorem Speciate_members_perm (neat : Neat) :
    ((neat.Speciate.flatMap (fun s => s.orgs)).map Network.core).Perm
      (neat.pop.map Network.core) := by
  obtain ⟨_, hperm, _, _⟩ := cluster_inv neat neat.pop
  have h1 : (neat.Speciate.flatMap (fun s => s.orgs)).Perm
      (((neat.cluster neat.pop).map shareFitness).flatMap (fun s => s.orgs)) :=
    List.Perm.flatMap_right _ (sortSlice_perm _ _)
  have h2 : ((((neat.cluster neat.pop).map shareFitness).flatMap (fun s => s.orgs)).map
      Network.core).Perm
      (((neat.cluster neat.pop).flatMap (fun s => s.orgs)).map Network.core) := by
    rw [List.flatMap_map, List.map_flatMap, List.map_flatMap]
    apply List.Perm.flatMap_left
    intro s _
    have hp := sortSlice_perm (fun a b : Network => decide (a.fitness > b.fitness))
      (s.orgs.map (fun org =>
        { org with adjustedFitness := org.fitness / (s.orgs.length : ℚ) }))
    have hm : (s.orgs.map (fun org =>
        { org with adjustedFitness := org.fitness / (s.orgs.length : ℚ) })).map Network.core
        = s.orgs.map Network.core := by
      rw [List.map_map]
      apply List.map_congr_left
      intro g _
      rfl
    simp only [shareFitness, SortByFitness]
    rw [← hm]
    exact hp.map Network.core
  exact (h1.map Network.core).trans (h2.trans (hperm.map Network.core))

/-- C20: the species that `Speciate` returns partition the population: no species is
empty, the members of all species together are the genomes of the population, each as
often as it occurs there (genomes taken without the adjusted fitness, which `Speciate`
overwrites), and the species sizes sum to the population size. -/
theorem Speciate_partition (neat : Neat) :
    (∀ s ∈ neat.Speciate, s.orgs ≠ [])
      ∧ ((neat.Speciate.flatMap (fun s => s.orgs)).map Network.core).Perm
          (neat.pop.map Network.core)
      ∧ (neat.Speciate.map (fun s => s.orgs.length)).sum = neat.pop.length := by
  refine ⟨Speciate_orgs_ne_nil neat, Speciate_members_perm neat, ?_⟩
  have hlen := (Speciate_members_perm neat).length_eq
  simp only [List.length_map, List.length_flatMap] at hlen
  simpa using hlen

/-! ## Offspring allocation -/

theorem foldl_offspring_eq_sum (l : List Species) (a : Int) :
    l.foldl (fun sum s => sum + s.offspring) a = a + (l.map (fun s => s.offspring)).sum := by
  induction l generalizing a with
  | nil => simp
  | cons x rest ih => rw [List.foldl_cons, ih, List.map_cons, List.sum_cons, add_assoc]

theorem foldl_adjustedSum_eq_sum (l : List Species) (a : ℚ) :
    l.foldl (fun sum s => sum + s.adjustedSum) a
      = a + (l.map (fun s => s.adjustedSum)).sum := by
  induction l generalizing a with
  | nil => simp
  | cons x rest ih => rw [List.foldl_cons, ih, List.map_cons, List.sum_cons, add_assoc]

theorem bumpOffspring_spec (i : Nat) (sl : List Species) (h : i < sl.length) :
    ∃ bumped, bumpOffspring i sl = some bumped
      ∧ bumped.length = sl.length
      ∧ (bumped.map (fun s => s.offspring)).sum = (sl.map (fun s => s.offspring)).sum + 1
      ∧ ((∀ s ∈ sl, 0 ≤ s.offspring) → ∀ s ∈ bumped, 0 ≤ s.offspring)
      ∧ bumped.map (fun s => s.orgs) = sl.map (fun s => s.orgs) := by
  induction sl generalizing i with
  | nil => simp at h
  | cons s rest ih =>
    cases i with
    | zero =>
      refine ⟨{ s with offspring := s.offspring + 1 } :: rest, rfl, rfl, ?_, ?_, rfl⟩
      · simp only [List.map_cons, List.sum_cons]; ring
      · intro hnn x hx
        rcases List.mem_cons.mp hx with rfl | hx
        · have := hnn s (List.mem_cons_self _ _)
          simp only; omega
        · exact hnn x (List.mem_cons_of_mem _ hx)
    | succ i =>
      obtain ⟨b, hb, hlen, hsum, hnn, horgs⟩ := ih i (by simpa using h)
      refine ⟨s :: b, by simp [bumpOffspring, hb], by simp [hlen], ?_, ?_, by simp [horgs]⟩
      · simp only [List.map_cons, List.sum_cons, hsum]; ring
      · intro hall x hx
        rcases List.mem_cons.mp hx with rfl | hx
        · exact hall x (List.mem_cons_self _ _)
        · exact hnn (fun y hy => hall y (List.mem_cons_of_mem _ hy)) x hx

theorem sprinkle_spec (count i : Nat) (sl : List Species) (hne : sl ≠ []) :
    ∃ sprinkled, sprinkle count i sl = Except.ok sprinkled
      ∧ sprinkled.length = sl.length
      ∧ (sprinkled.map (fun s => s.offspring)).sum
          = (sl.map (fun s => s.offspring)).sum + count
      ∧ ((∀ s ∈ sl, 0 ≤ s.offspring) → ∀ s ∈ sprinkled, 0 ≤ s.offspring)
      ∧ sprinkled.map (fun s => s.orgs) = sl.map (fun s => s.orgs) := by
  induction count generalizing i sl with
  | zero => exact ⟨sl, rfl, rfl, by simp, fun h => h, rfl⟩
  | succ count ih =>
    have hpos : 0 < sl.length := List.length_pos.mpr hne
    obtain ⟨b, hb, hlen, hsum, hnn, horgs⟩ :=
      bumpOffspring_spec (i % sl.length) sl (Nat.mod_lt _ hpos)
    have hbne : b ≠ [] := by
      intro hnil
      rw [hnil, List.length_nil] at hlen
      omega
    obtain ⟨sp, hsp, hlen2, hsum2, hnn2, horgs2⟩ := ih (i + 1) b hbne
    refine ⟨sp, ?_, by rw [hlen2, hlen], ?_, fun h => hnn2 (hnn h), by rw [horgs2, horgs]⟩
    · unfold sprinkle
      have : ¬ sl.length = 0 := by omega
      simp only [this, if_false, hb]
      exact hsp
    · rw [hsum2, hsum]; push_cast; ring

theorem truncToInt_of_nonneg (x : ℚ) (h : 0 ≤ x) : truncToInt x = ⌊x⌋ := by
  simp [truncToInt, h]

theorem sum_floor_le (l : List Species) (f : ℚ) :
    (((l.map (fun s => ⌊s.adjustedSum / f⌋)).sum : Int) : ℚ)
      ≤ (l.map (fun s => s.adjustedSum)).sum / f := by
  induction l with
  | nil => simp
  | cons x rest ih =>
    simp only [List.map_cons, List.sum_cons, Int.cast_add, add_div]
    exact add_le_add (Int.floor_le _) ih

theorem shareFitness_adjustedSum_nonneg (s : Species) (h : ∀ g ∈ s.orgs, 0 ≤ g.fitness) :
    0 ≤ (shareFitness s).adjustedSum := by
  simp only [shareFitness]
  rw [foldl_adjusted_eq_sum, zero_add]
  apply List.sum_nonneg
  intro x hx
  simp only [List.map_map, List.mem_map, Function.comp] at hx
  obtain ⟨g, hg, rfl⟩ := hx
  exact div_nonneg (h g hg) (Nat.cast_nonneg _)

theorem Speciate_adjustedSum_nonneg (neat : Neat) (hfit : ∀ g ∈ neat.pop, 0 ≤ g.fitness) :
    ∀ s ∈ neat.Speciate, 0 ≤ s.adjustedSum := by
  intro s hs
  unfold Neat.Speciate at hs
  rw [mem_sortSlice] at hs
  obtain ⟨s0, hs0, rfl⟩ := List.mem_map.mp hs
  apply shareFitness_adjustedSum_nonneg
  intro g hg
  obtain ⟨_, hperm, _, _⟩ := cluster_inv neat neat.pop
  exact hfit g (hperm.mem_iff.mp (List.mem_flatMap.mpr ⟨s0, hs0, hg⟩))

theorem Speciate_ne_nil (neat : Neat) (hne : neat.pop ≠ []) : neat.Speciate ≠ [] := by
  intro hnil
  obtain ⟨_, hperm, _, _⟩ := cluster_inv neat neat.pop
  have hlen := ((sortSlice_perm (fun a b : Species => decide (a.adjustedSum > b.adjustedSum))
    ((neat.cluster neat.pop).map shareFitness)).length_eq)
  unfold Neat.Speciate at hnil
  rw [hnil, List.length_nil, List.length_map] at hlen
  have hc : neat.cluster neat.pop = [] := List.length_eq_zero.mp hlen.symm
  rw [hc] at hperm
  simp only [List.flatMap_nil] at hperm
  exact hne hperm.symm.eq_nil

theorem bumpOffspring_getElem (i : Nat) (sl bumped : List Species)
    (h : bumpOffspring i sl = some bumped) (k : Nat) :
    bumped[k]? = (sl[k]?).map
      (fun s => { s with offspring := s.offspring + if k = i then 1 else 0 }) := by
  induction sl generalizing i k bumped with
  | nil => simp [bumpOffspring] at h
  | cons s rest ih =>
    cases i with
    | zero =>
      simp only [bumpOffspring, Option.some.injEq] at h
      subst h
      cases k with
      | zero => simp
      | succ k => simp
    | succ i =>
      simp only [bumpOffspring] at h
      obtain ⟨b, hb, rfl⟩ := Option.map_eq_some'.mp h
      cases k with
      | zero => simp
      | succ k =>
        simp only [List.getElem?_cons_succ, ih i b hb k]
        simp

theorem sprinkle_getElem (count i : Nat) (sl sprinkled : List Species)
    (h : sprinkle count i sl = Except.ok sprinkled) (k : Nat) :
    sprinkled[k]? = (sl[k]?).map (fun s => { s with offspring := s.offspring
      + (((List.range' i count).filter (fun j => decide (j % sl.length = k))).length : Int) }) := by
  induction count generalizing i sl with
  | zero =>
    unfold sprinkle at h
    injection h with h
    subst h
    cases hk : sl[k]? <;> simp
  | succ count ih =>
    unfold sprinkle at h
    split at h
    · exact absurd h (by simp)
    · rename_i hlen
      split at h
      · exact absurd h (by simp)
      · rename_i bumped hb
        have hpos : 0 < sl.length := Nat.pos_of_ne_zero hlen
        obtain ⟨b1, hb1, hlen1, _⟩ := bumpOffspring_spec (i % sl.length) sl (Nat.mod_lt _ hpos)
        rw [hb] at hb1
        injection hb1 with hb1
        subst hb1
        rw [ih (i + 1) bumped h, hlen1, bumpOffspring_getElem _ _ _ hb k, Option.map_map,
          List.range'_succ]
        cases hk : sl[k]? with
        | none => rfl
        | some s =>
          simp only [Option.map_some', Function.comp, Option.some.injEq]
          by_cases hik : i % sl.length = k
          · subst hik
            simp only [List.filter_cons, decide_True, if_true, List.length_cons]
            congr 1
            push_cast
            ring
          · have hki : ¬ k = i % sl.length := fun h => hik h.symm
            simp only [List.filter_cons, hik, decide_False, hki, if_false, add_zero]
            simp

theorem assignOffspring_eq (neat : Neat) (hpos : (0 : ℚ) < (neat.config.size : ℚ)) :
    neat.assignOffspring neat.Speciate
      = neat.Speciate.map (fun s =>
          { s with offspring := truncToInt (s.adjustedSum / fitnessPerOffspringOf neat) }) := by
  have hiff : ((neat.Speciate.map (fun s => s.adjustedSum)).sum / (neat.config.size : ℚ) = 0)
      ↔ (neat.Speciate.map (fun s => s.adjustedSum)).sum = 0 := by
    constructor
    · intro hz
      rcases div_eq_zero_iff.mp hz with h | h
      · exact h
      · exact absurd h (ne_of_gt hpos)
    · intro h0
      rw [h0, zero_div]
  simp only [Neat.assignOffspring, foldl_adjustedSum_eq_sum, zero_add, fitnessPerOffspringOf,
    hiff]

/-- C17: on a non-empty population of the configured size whose fitness values are all
non-negative, the first half of `Reproduce` completes and leaves one count per species of
the speciation, in the same order: the count of the species of index `k` is
`floor (adjustedSum / fitnessPerOffspring)`, with `fitnessPerOffspring` the total adjusted
sum divided by the size, or 1 when the total is zero, plus the number of turns that a
round-robin over the species, of as many turns as the floors fall short of the size, gives
to index `k`. The counts are all non-negative and sum to the configured size, the species
keep their members, and `Reproduce` goes on from these counts. -/
theorem allocateOffspring_spec (neat : Neat) (hne : neat.pop ≠ [])
    (hsize : (neat.pop.length : Int) = neat.config.size)
    (hfit : ∀ g ∈ neat.pop, 0 ≤ g.fitness) :
    ∃ sprinkled, neat.allocateOffspring = Except.ok sprinkled
      ∧ sprinkled.length = neat.Speciate.length
      ∧ (∀ k s0, neat.Speciate[k]? = some s0 →
          ∃ s, sprinkled[k]? = some s ∧ s.orgs = s0.orgs ∧ s.adjustedSum = s0.adjustedSum
            ∧ s.offspring = ⌊s0.adjustedSum / fitnessPerOffspringOf neat⌋
                + (roundRobinExtra (offspringShortfall neat) neat.Speciate.length k : Int))
      ∧ (∀ s ∈ sprinkled, 0 ≤ s.offspring)
      ∧ (sprinkled.map (fun s => s.offspring)).sum = neat.config.size
      ∧ sprinkled.map (fun s => s.orgs) = neat.Speciate.map (fun s => s.orgs)
      ∧ ∀ rnd, neat.Reproduce rnd
          = match neat.reproduceAll sprinkled [] neat.inno rnd with
            | .error f => .error f
            | .ok (newPop, inno, rnd1) =>
              .ok ({ neat with inno := inno, pop := newPop, gen := neat.gen + 1 }, rnd1) := by
  have hpos : (0 : ℚ) < (neat.config.size : ℚ) := by
    have : 0 < neat.pop.length := List.length_pos.mpr hne
    have h2 : (0 : Int) < neat.config.size := by omega
    exact_mod_cast h2
  have hadj := Speciate_adjustedSum_nonneg neat hfit
  have htotal : 0 ≤ (neat.Speciate.map (fun s => s.adjustedSum)).sum := by
    apply List.sum_nonneg
    intro x hx
    obtain ⟨s, hs, rfl⟩ := List.mem_map.mp hx
    exact hadj s hs
  -- the fitness that buys one offspring
  have hf := assignOffspring_eq neat hpos
  have hfpos : 0 < fitnessPerOffspringOf neat := by
    unfold fitnessPerOffspringOf
    split
    · exact one_pos
    · rename_i hT
      exact div_pos (lt_of_le_of_ne htotal (Ne.symm hT)) hpos
  have hbound : (neat.Speciate.map (fun s => s.adjustedSum)).sum / fitnessPerOffspringOf neat
      ≤ (neat.config.size : ℚ) := by
    unfold fitnessPerOffspringOf
    split
    · rename_i hT
      rw [hT, zero_div]
      exact le_of_lt hpos
    · rename_i hT
      rw [div_div_cancel₀ hT]
  -- the counts before the round-robin correction
  have hcount : ∀ s ∈ neat.Speciate,
      truncToInt (s.adjustedSum / fitnessPerOffspringOf neat)
        = ⌊s.adjustedSum / fitnessPerOffspringOf neat⌋ :=
    fun s hs => truncToInt_of_nonneg _ (div_nonneg (hadj s hs) (le_of_lt hfpos))
  have hmap : (neat.assignOffspring neat.Speciate).map (fun s => s.offspring)
      = neat.Speciate.map (fun s => ⌊s.adjustedSum / fitnessPerOffspringOf neat⌋) := by
    rw [hf, List.map_map]
    apply List.map_congr_left
    intro s hs
    exact hcount s hs
  have hnonneg : ∀ s ∈ neat.assignOffspring neat.Speciate, 0 ≤ s.offspring := by
    intro s hs
    rw [hf] at hs
    obtain ⟨s0, hs0, rfl⟩ := List.mem_map.mp hs
    simp only
    rw [hcount s0 hs0]
    exact Int.floor_nonneg.mpr (div_nonneg (hadj s0 hs0) (le_of_lt hfpos))
  have hle : ((neat.assignOffspring neat.Speciate).map (fun s => s.offspring)).sum
      ≤ neat.config.size := by
    rw [hmap]
    have := le_trans (sum_floor_le neat.Speciate (fitnessPerOffspringOf neat)) hbound
    exact_mod_cast this
  have hne2 : neat.assignOffspring neat.Speciate ≠ [] := by
    rw [hf]
    intro hnil
    exact Speciate_ne_nil neat hne (List.map_eq_nil_iff.mp hnil)
  have hlen0 : (neat.assignOffspring neat.Speciate).length = neat.Speciate.length := by
    rw [hf, List.length_map]
  have hshort : (neat.config.size - ((neat.assignOffspring neat.Speciate).map
      (fun s => s.offspring)).sum).toNat = offspringShortfall neat := by
    rw [hmap]
    rfl
  obtain ⟨sp, hsp, hlen, hsum, hnn, horgs⟩ := sprinkle_spec
    (neat.config.size - ((neat.assignOffspring neat.Speciate).map
      (fun s => s.offspring)).sum).toNat 0 _ hne2
  have halloc : neat.allocateOffspring = Except.ok sp := by
    simp only [Neat.allocateOffspring, foldl_offspring_eq_sum, zero_add]
    exact hsp
  refine ⟨sp, halloc, by rw [hlen, hlen0], ?_, hnn hnonneg, ?_, ?_, ?_⟩
  · intro k s0 hk
    have hget := sprinkle_getElem _ 0 _ sp hsp k
    rw [hshort, hlen0, ← List.range_eq_range'] at hget
    rw [hf, List.getElem?_map, hk] at hget
    simp only [Option.map_some'] at hget
    refine ⟨_, hget, rfl, rfl, ?_⟩
    simp only
    rw [hcount s0 (List.getElem?_mem hk)]
    rfl
  · rw [hsum]
    omega
  · rw [horgs, hf, List.map_map]
    rfl
  · intro rnd
    simp only [Neat.allocateOffspring] at halloc
    simp only [Neat.Reproduce, halloc]

/-! ## The historical-marking counter -/

theorem idsBelow_mono (g : Network) (a b : Nat) (hab : a ≤ b) (h : g.idsBelow a) :
    g.idsBelow b :=
  fun e he => lt_of_lt_of_le (h e he) hab

theorem idsBelow_of_genes_eq (g g1 : Network) (b : Nat) (hg : g1.genes = g.genes)
    (h : g.idsBelow b) : g1.idsBelow b := by
  unfold Network.idsBelow
  rw [hg]
  exact h

theorem idsBelow_iff_keys (g : Network) (b : Nat) :
    g.idsBelow b ↔ ∀ k ∈ g.genes.map Prod.fst, k < b := by
  unfold Network.idsBelow
  constructor
  · intro h k hk
    obtain ⟨e, he, rfl⟩ := List.mem_map.mp hk
    exact h e he
  · intro h e he
    exact h e.1 (List.mem_map_of_mem Prod.fst he)

theorem AddGene_idsBelow (g : Network) (id a c : Nat) (w : ℚ) (b : Nat)
    (h : g.idsBelow b) (hid : id < b) : (g.AddGene id a c w).1.idsBelow b := by
  unfold Network.AddGene
  split
  · exact h
  · intro e he
    rcases List.mem_append.mp he with he | he
    · exact h e he
    · rw [List.mem_singleton.mp he]; exact hid

theorem MutateAddGene_idsBelow (g : Network) (inno : Nat) (rnd : Rand) (g1 : Network)
    (inno1 : Nat) (rnd1 : Rand)
    (hrun : g.MutateAddGene inno rnd = Except.ok (g1, inno1, rnd1)) :
    inno ≤ inno1 ∧ (g.idsBelow inno → g1.idsBelow inno1) := by
  rcases addGeneTries_shape g _ _ 5 inno rnd g1 inno1 rnd1 hrun with
    ⟨rfl, rfl⟩ | ⟨a, c, w, rfl, rfl⟩
  · exact ⟨le_refl _, fun h => h⟩
  · exact ⟨Nat.le_succ _, fun h =>
      AddGene_idsBelow g inno a c w (inno + 1) (idsBelow_mono g _ _ (Nat.le_succ _) h)
        (Nat.lt_succ_self _)⟩

theorem disable_idsBelow (g : Network) (id b : Nat) (h : g.idsBelow b) :
    (g.disable id).idsBelow b := by
  rw [idsBelow_iff_keys] at h ⊢
  rw [keys_disable]
  exact h

theorem MutateAddNode_idsBelow (g : Network) (inno : Nat) (rnd : Rand) (g1 : Network)
    (inno1 : Nat) (rnd1 : Rand)
    (hrun : g.MutateAddNode inno rnd = Except.ok (g1, inno1, rnd1)) :
    inno ≤ inno1 ∧ (g.idsBelow inno → g1.idsBelow inno1) := by
  unfold Network.MutateAddNode at hrun
  simp only at hrun
  split at hrun
  · injection hrun with hrun
    have e1 : g = g1 := congrArg Prod.fst hrun
    have e2 : inno = inno1 := congrArg (fun p => p.2.1) hrun
    subst e1 e2
    exact ⟨le_refl _, fun h => h⟩
  · split at hrun
    · exact absurd hrun (by simp)
    · split at hrun
      · exact absurd hrun (by simp)
      · injection hrun with hrun
        have e1 := congrArg Prod.fst hrun
        have e2 : inno + 2 = inno1 := congrArg (fun p => p.2.1) hrun
        simp only at e1
        subst e1 e2
        refine ⟨by omega, fun h => ?_⟩
        apply AddGene_idsBelow _ _ _ _ _ _ _ (by omega)
        apply AddGene_idsBelow _ _ _ _ _ _ _ (by omega)
        exact disable_idsBelow g _ _ (idsBelow_mono g _ _ (by omega) h)

theorem nudgeGenes_keys (cfg : NetworkConfig) (l : List (Nat × Gene)) (rnd : Rand) :
    (nudgeGenes cfg l rnd).1.map Prod.fst = l.map Prod.fst := by
  induction l generalizing rnd with
  | nil => rfl
  | cons x rest ih =>
    obtain ⟨id, g⟩ := x
    simp only [nudgeGenes, List.map_cons]
    rw [ih]

theorem NudgeWeights_idsBelow (g : Network) (rnd : Rand) (b : Nat) (h : g.idsBelow b) :
    (g.NudgeWeights rnd).1.idsBelow b := by
  rw [idsBelow_iff_keys] at h ⊢
  simp only [Network.NudgeWeights]
  rw [nudgeGenes_keys]
  exact h

theorem MutateNetwork_idsBelow (neat : Neat) (g : Network) (inno : Nat) (rnd : Rand)
    (g1 : Network) (inno1 : Nat) (rnd1 : Rand)
    (hrun : neat.MutateNetwork g inno rnd = Except.ok (g1, inno1, rnd1)) :
    inno ≤ inno1 ∧ (g.idsBelow inno → g1.idsBelow inno1) := by
  unfold Neat.MutateNetwork at hrun
  simp only at hrun
  split at hrun
  · exact absurd hrun (by simp)
  · rename_i ga innoa rnda hga
    have hstep1 : inno ≤ innoa ∧ (g.idsBelow inno → ga.idsBelow innoa) := by
      split at hga
      · exact MutateAddGene_idsBelow g inno _ ga innoa rnda hga
      · injection hga with hga
        have e1 : g = ga := congrArg Prod.fst hga
        have e2 : inno = innoa := congrArg (fun p => p.2.1) hga
        subst e1 e2
        exact ⟨le_refl _, fun h => h⟩
    split at hrun
    · exact absurd hrun (by simp)
    · rename_i gb innob rndb hgb
      have hstep2 : innoa ≤ innob ∧ (ga.idsBelow innoa → gb.idsBelow innob) := by
        split at hgb
        · exact MutateAddNode_idsBelow ga innoa _ gb innob rndb hgb
        · injection hgb with hgb
          have e1 : ga = gb := congrArg Prod.fst hgb
          have e2 : innoa = innob := congrArg (fun p => p.2.1) hgb
          subst e1 e2
          exact ⟨le_refl _, fun h => h⟩
      split at hrun
      · injection hrun with hrun
        have e1 := congrArg Prod.fst hrun
        have e2 : innob = inno1 := congrArg (fun p => p.2.1) hrun
        simp only at e1
        subst e1 e2
        exact ⟨le_trans hstep1.1 hstep2.1, fun h =>
          NudgeWeights_idsBelow gb _ _ (hstep2.2 (hstep1.2 h))⟩
      · injection hrun with hrun
        have e1 : gb = g1 := congrArg Prod.fst hrun
        have e2 : innob = inno1 := congrArg (fun p => p.2.1) hrun
        subst e1 e2
        exact ⟨le_trans hstep1.1 hstep2.1, fun h => hstep2.2 (hstep1.2 h)⟩

theorem fillOffspring_idsBelow (neat : Neat) (orgs : List Network) (offspring : Nat)
    (newPop : List Network) (inno : Nat) (rnd : Rand) (newPop1 : List Network) (inno1 : Nat)
    (rnd1 : Rand)
    (hrun : neat.fillOffspring orgs offspring newPop inno rnd
      = Except.ok (newPop1, inno1, rnd1)) :
    inno ≤ inno1
      ∧ ((∀ g ∈ orgs, g.idsBelow inno) → (∀ g ∈ newPop, g.idsBelow inno) →
          ∀ g ∈ newPop1, g.idsBelow inno1) := by
  induction offspring generalizing newPop inno rnd with
  | zero =>
    unfold Neat.fillOffspring at hrun
    injection hrun with hrun
    have e1 : newPop = newPop1 := congrArg Prod.fst hrun
    have e2 : inno = inno1 := congrArg (fun p => p.2.1) hrun
    subst e1 e2
    exact ⟨le_refl _, fun _ h => h⟩
  | succ offspring ih =>
    unfold Neat.fillOffspring at hrun
    split at hrun
    · exact absurd hrun (by simp)
    · split at hrun
      · exact absurd hrun (by simp)
      · rename_i org horg
        split at hrun
        · exact absurd hrun (by simp)
        · rename_i newOrg inno2 rnd2 hmut
          obtain ⟨hle, hids⟩ := MutateNetwork_idsBelow neat org.Copy _ _ newOrg inno2 rnd2 hmut
          obtain ⟨hle2, hids2⟩ := ih _ _ _ hrun
          refine ⟨le_trans hle hle2, fun horgs hnew => ?_⟩
          apply hids2
          · exact fun g hg => idsBelow_mono g _ _ hle (horgs g hg)
          · intro g hg
            rcases List.mem_append.mp hg with hg | hg
            · exact idsBelow_mono g _ _ hle (hnew g hg)
            · rw [List.mem_singleton.mp hg]
              exact hids (horgs org (List.getElem?_mem horg))

theorem BestFitness_mem (group : List Network) (best : Network)
    (h : BestFitness group = some best) : best ∈ group := by
  have key : ∀ (l : List Network) (acc : ℚ × Option Network),
      (∀ b, acc.2 = some b → b ∈ group) → (∀ g ∈ l, g ∈ group) →
      ∀ b, (l.foldl (fun (acc : ℚ × Option Network) g =>
        if g.fitness > acc.1 then (g.fitness, some g) else acc) acc).2 = some b → b ∈ group := by
    intro l
    induction l with
    | nil => intro acc hacc _ b hb; exact hacc b hb
    | cons x rest ih =>
      intro acc hacc hl b hb
      rw [List.foldl_cons] at hb
      refine ih _ ?_ (fun g hg => hl g (List.mem_cons_of_mem _ hg)) b hb
      intro b1 hb1
      split at hb1
      · simp only [Option.some.injEq] at hb1
        rw [← hb1]; exact hl x (List.mem_cons_self _ _)
      · exact hacc b1 hb1
  exact key group (0, none) (by simp) (fun g hg => hg) best h

theorem reproduceSpecies_idsBelow (neat : Neat) (spec : Species) (newPop : List Network)
    (inno : Nat) (rnd : Rand) (newPop1 : List Network) (inno1 : Nat) (rnd1 : Rand)
    (hrun : neat.reproduceSpecies spec newPop inno rnd = Except.ok (newPop1, inno1, rnd1)) :
    inno ≤ inno1
      ∧ ((∀ g ∈ spec.orgs, g.idsBelow inno) → (∀ g ∈ newPop, g.idsBelow inno) →
          ∀ g ∈ newPop1, g.idsBelow inno1) := by
  unfold Neat.reproduceSpecies at hrun
  split at hrun
  · split at hrun
    · exact absurd hrun (by simp)
    · rename_i best hbest
      obtain ⟨hle, hids⟩ := fillOffspring_idsBelow neat _ _ _ _ _ _ _ _ hrun
      refine ⟨hle, fun horgs hnew => hids horgs ?_⟩
      intro g hg
      rcases List.mem_append.mp hg with hg | hg
      · exact hnew g hg
      · rw [List.mem_singleton.mp hg]
        exact horgs best (BestFitness_mem _ _ hbest)
  · exact fillOffspring_idsBelow neat _ _ _ _ _ _ _ _ hrun

theorem reproduceAll_idsBelow (neat : Neat) (speciesList : List Species)
    (newPop : List Network) (inno : Nat) (rnd : Rand) (newPop1 : List Network) (inno1 : Nat)
    (rnd1 : Rand)
    (hrun : neat.reproduceAll speciesList newPop inno rnd = Except.ok (newPop1, inno1, rnd1)) :
    inno ≤ inno1
      ∧ ((∀ s ∈ speciesList, ∀ g ∈ s.orgs, g.idsBelow inno) →
          (∀ g ∈ newPop, g.idsBelow inno) → ∀ g ∈ newPop1, g.idsBelow inno1) := by
  induction speciesList generalizing newPop inno rnd with
  | nil =>
    unfold Neat.reproduceAll at hrun
    injection hrun with hrun
    have e1 : newPop = newPop1 := congrArg Prod.fst hrun
    have e2 : inno = inno1 := congrArg (fun p => p.2.1) hrun
    subst e1 e2
    exact ⟨le_refl _, fun _ h => h⟩
  | cons spec rest ih =>
    unfold Neat.reproduceAll at hrun
    split at hrun
    · exact absurd hrun (by simp)
    · rename_i newPop2 inno2 rnd2 hspec
      obtain ⟨hle, hids⟩ := reproduceSpecies_idsBelow neat spec _ _ _ _ _ _ hspec
      obtain ⟨hle2, hids2⟩ := ih _ _ _ hrun
      refine ⟨le_trans hle hle2, fun hall hnew => ?_⟩
      apply hids2
      · exact fun s hs g hg =>
          idsBelow_mono g _ _ hle (hall s (List.mem_cons_of_mem _ hs) g hg)
      · exact hids (hall spec (List.mem_cons_self _ _)) hnew

theorem sprinkle_orgs (count i : Nat) (sl sprinkled : List Species)
    (h : sprinkle count i sl = Except.ok sprinkled) :
    sprinkled.map (fun s => s.orgs) = sl.map (fun s => s.orgs) := by
  by_cases hne : sl = []
  · subst hne
    cases count with
    | zero =>
      unfold sprinkle at h
      injection h with h
      rw [← h]
    | succ count =>
      unfold sprinkle at h
      simp at h
  · obtain ⟨sp, hsp, _, _, _, horgs⟩ := sprinkle_spec count i sl hne
    rw [hsp] at h
    injection h with h
    rw [← h]; exact horgs

theorem Speciate_member_genes (neat : Neat) (s : Species) (hs : s ∈ neat.Speciate)
    (g : Network) (hg : g ∈ s.orgs) : ∃ g0 ∈ neat.pop, g.genes = g0.genes := by
  have hmem : g.core ∈ (neat.Speciate.flatMap (fun s => s.orgs)).map Network.core :=
    List.mem_map_of_mem Network.core (List.mem_flatMap.mpr ⟨s, hs, hg⟩)
  rw [(Speciate_members_perm neat).mem_iff] at hmem
  obtain ⟨g0, hg0, hcore⟩ := List.mem_map.mp hmem
  exact ⟨g0, hg0, (congrArg Network.genes hcore).symm⟩

theorem Reproduce_idsBelow (neat : Neat) (rnd : Rand) (neat1 : Neat) (rnd1 : Rand)
    (hrun : neat.Reproduce rnd = Except.ok (neat1, rnd1)) :
    neat.inno ≤ neat1.inno
      ∧ ((∀ g ∈ neat.pop, g.idsBelow neat.inno) → ∀ g ∈ neat1.pop, g.idsBelow neat1.inno) := by
  unfold Neat.Reproduce at hrun
  simp only at hrun
  split at hrun
  · exact absurd hrun (by simp)
  · rename_i sprinkled hsp
    split at hrun
    · exact absurd hrun (by simp)
    · rename_i newPop inno rnd2 hall
      injection hrun with hrun
      have e1 := congrArg Prod.fst hrun
      simp only at e1
      subst e1
      obtain ⟨hle, hids⟩ := reproduceAll_idsBelow neat sprinkled [] neat.inno rnd _ _ _ hall
      refine ⟨hle, fun hpop => hids ?_ (by simp)⟩
      intro s hs g hg
      have horgs := sprinkle_orgs _ _ _ _ hsp
      have hmem : s.orgs ∈ sprinkled.map (fun s => s.orgs) := List.mem_map_of_mem _ hs
      rw [horgs] at hmem
      obtain ⟨s1, hs1, hs1orgs⟩ := List.mem_map.mp hmem
      simp only [Neat.assignOffspring] at hs1
      obtain ⟨s0, hs0, rfl⟩ := List.mem_map.mp hs1
      simp only at hs1orgs
      rw [← hs1orgs] at hg
      obtain ⟨g0, hg0, hgenes⟩ := Speciate_member_genes neat s0 hs0 g hg
      exact idsBelow_of_genes_eq g0 g _ hgenes (hpop g0 hg0)

theorem seedGenes_range (startingWeights : Int) (fuel : Nat) (seedNet : Network) (inno : Nat)
    (rnd : Rand) (n1 : Network) (inno1 : Nat) (rnd1 : Rand)
    (hkeys : seedNet.genes.map Prod.fst = List.range inno)
    (h : seedGenes startingWeights fuel seedNet inno rnd = Except.ok (n1, inno1, rnd1)) :
    n1.genes.map Prod.fst = List.range inno1 := by
  induction fuel generalizing seedNet inno rnd with
  | zero =>
    unfold seedGenes at h
    split at h
    · exact absurd h (by simp)
    · injection h with h
      have e1 : seedNet = n1 := congrArg Prod.fst h
      have e2 : inno = inno1 := congrArg (fun p => p.2.1) h
      subst e1 e2
      exact hkeys
  | succ fuel ih =>
    unfold seedGenes at h
    split at h
    · simp only at h
      split at h
      · exact absurd h (by simp)
      · rename_i n2 inno2 rnd2 hrun
        exact ih n2 inno2 rnd2
          (MutateAddGene_keys seedNet inno rnd n2 inno2 rnd2 hkeys hrun).1 h
    · injection h with h
      have e1 : seedNet = n1 := congrArg Prod.fst h
      have e2 : inno = inno1 := congrArg (fun p => p.2.1) h
      subst e1 e2
      exact hkeys

theorem NewNeat_idsBelow (fuel : Nat) (config : NeatConfig) (rnd : Rand) (neat : Neat)
    (rnd1 : Rand) (h : NewNeat fuel config rnd = Except.ok (neat, rnd1)) :
    ∀ g ∈ neat.pop, g.idsBelow neat.inno := by
  unfold NewNeat at h
  simp only at h
  split at h
  · exact absurd h (by simp)
  · split at h
    · exact absurd h (by simp)
    · rename_i seedNet1 inno rnd2 hseed
      have hkeys := seedGenes_range config.startingWeights fuel
        (NewNetwork config.networkConfig) 0 rnd seedNet1 inno rnd2 rfl hseed
      injection h with h
      have hneat := congrArg Prod.fst h
      simp only at hneat
      subst hneat
      intro g hg
      rcases (seedPop_spec seedNet1 config.size.toNat [] rnd2).2 g hg with hnil | hk
      · simp at hnil
      · rw [idsBelow_iff_keys, hk, hkeys]
        intro k hk
        exact List.mem_range.mp hk

theorem SameGenomes_idsBelow (pop pop1 : List Network) (b : Nat) (h : SameGenomes pop pop1)
    (hpop : ∀ g ∈ pop, g.idsBelow b) : ∀ g ∈ pop1, g.idsBelow b := by
  unfold SameGenomes at h
  induction h with
  | nil => intro g hg; simp at hg
  | @cons a a1 l l1 hab _ ih =>
    intro g hg
    rcases List.mem_cons.mp hg with rfl | hg
    · exact idsBelow_of_genes_eq a g _ hab.1 (hpop a (List.mem_cons_self _ _))
    · exact ih (fun x hx => hpop x (List.mem_cons_of_mem _ hx)) g hg

theorem MutateAddGene_block (g : Network) (c : Nat) (rnd : Rand) (g1 : Network) (c1 : Nat)
    (rnd1 : Rand) (hb : g.idsBelow c)
    (hrun : g.MutateAddGene c rnd = Except.ok (g1, c1, rnd1)) :
    c ≤ c1 ∧ c1 ≤ c + 1
      ∧ g1.genes.map Prod.fst = g.genes.map Prod.fst ++ List.range' c (c1 - c) := by
  rcases addGeneTries_shape g _ _ 5 c rnd g1 c1 rnd1 hrun with ⟨rfl, rfl⟩ | ⟨a, d, w, rfl, rfl⟩
  · exact ⟨le_refl _, Nat.le_succ _, by simp⟩
  · refine ⟨Nat.le_succ _, le_refl _, ?_⟩
    have hnot : c ∉ g.genes.map Prod.fst := fun h =>
      absurd ((idsBelow_iff_keys g c).mp hb c h) (lt_irrefl _)
    rw [keys_AddGene g c a d w (HasGene_false_of_not_mem g c hnot)]
    simp

theorem MutateAddNode_block (g : Network) (c : Nat) (rnd : Rand) (g1 : Network) (c1 : Nat)
    (rnd1 : Rand) (hb : g.idsBelow c)
    (hrun : g.MutateAddNode c rnd = Except.ok (g1, c1, rnd1)) :
    (c1 = c ∨ c1 = c + 2)
      ∧ g1.genes.map Prod.fst = g.genes.map Prod.fst ++ List.range' c (c1 - c) := by
  unfold Network.MutateAddNode at hrun
  simp only at hrun
  split at hrun
  · injection hrun with hrun
    have e1 : g = g1 := congrArg Prod.fst hrun
    have e2 : c = c1 := congrArg (fun p => p.2.1) hrun
    subst e1 e2
    exact ⟨Or.inl rfl, by simp⟩
  · split at hrun
    · exact absurd hrun (by simp)
    · split at hrun
      · exact absurd hrun (by simp)
      · injection hrun with hrun
        have e1 := congrArg Prod.fst hrun
        have e2 : c + 2 = c1 := congrArg (fun p => p.2.1) hrun
        simp only at e1
        subst e1 e2
        refine ⟨Or.inr rfl, ?_⟩
        have hkeys := (idsBelow_iff_keys g c).mp hb
        have h1 : ∀ id, (g.disable id).HasGene c = false := by
          intro id
          apply HasGene_false_of_not_mem
          rw [keys_disable]
          exact fun h => absurd (hkeys c h) (lt_irrefl _)
        have h2 : ∀ id a m w, ((g.disable id).AddGene c a m w).1.HasGene (c + 1) = false := by
          intro id a m w
          apply HasGene_false_of_not_mem
          rw [keys_AddGene _ _ _ _ _ (h1 id), keys_disable]
          intro h
          rcases List.mem_append.mp h with h | h
          · have := hkeys (c + 1) h
            omega
          · simp at h
        rw [keys_AddGene _ _ _ _ _ (h2 _ _ _ _), keys_AddGene _ _ _ _ _ (h1 _), keys_disable]
        have : c + 2 - c = 2 := by omega
        rw [this]
        simp [List.range']

theorem NudgeWeights_keys (g : Network) (rnd : Rand) :
    (g.NudgeWeights rnd).1.genes.map Prod.fst = g.genes.map Prod.fst := by
  simp only [Network.NudgeWeights]
  exact nudgeGenes_keys g.config g.genes rnd

theorem range'_blocks (a b c : Nat) (hab : a ≤ b) (hbc : b ≤ c) :
    List.range' a (b - a) ++ List.range' b (c - b) = List.range' a (c - a) := by
  have h := List.range'_append a (b - a) (c - b) 1
  have e1 : a + 1 * (b - a) = b := by omega
  have e2 : c - b + (b - a) = c - a := by omega
  rw [e1, e2] at h
  exact h

theorem MutateNetwork_block (neat : Neat) (g : Network) (c : Nat) (rnd : Rand)
    (g1 : Network) (c1 : Nat) (rnd1 : Rand) (hb : g.idsBelow c)
    (hrun : neat.MutateNetwork g c rnd = Except.ok (g1, c1, rnd1)) :
    c ≤ c1 ∧ g1.genes.map Prod.fst = g.genes.map Prod.fst ++ List.range' c (c1 - c) := by
  unfold Neat.MutateNetwork at hrun
  simp only at hrun
  split at hrun
  · exact absurd hrun (by simp)
  · rename_i ga ca rnda hga
    have hstep1 : c ≤ ca ∧ ga.idsBelow ca
        ∧ ga.genes.map Prod.fst = g.genes.map Prod.fst ++ List.range' c (ca - c) := by
      split at hga
      · obtain ⟨h1, _, h3⟩ := MutateAddGene_block g c _ ga ca rnda hb hga
        exact ⟨h1, (MutateAddGene_idsBelow g c _ ga ca rnda hga).2 hb, h3⟩
      · injection hga with hga
        have e1 : g = ga := congrArg Prod.fst hga
        have e2 : c = ca := congrArg (fun p => p.2.1) hga
        subst e1 e2
        exact ⟨le_refl _, hb, by simp⟩
    obtain ⟨hle1, hba, hk1⟩ := hstep1
    split at hrun
    · exact absurd hrun (by simp)
    · rename_i gb cb rndb hgb
      have hstep2 : ca ≤ cb
          ∧ gb.genes.map Prod.fst = ga.genes.map Prod.fst ++ List.range' ca (cb - ca) := by
        split at hgb
        · obtain ⟨h1, h2⟩ := MutateAddNode_block ga ca _ gb cb rndb hba hgb
          exact ⟨by omega, h2⟩
        · injection hgb with hgb
          have e1 : ga = gb := congrArg Prod.fst hgb
          have e2 : ca = cb := congrArg (fun p => p.2.1) hgb
          subst e1 e2
          exact ⟨le_refl _, by simp⟩
      obtain ⟨hle2, hk2⟩ := hstep2
      have hkeys : gb.genes.map Prod.fst
          = g.genes.map Prod.fst ++ List.range' c (cb - c) := by
        rw [hk2, hk1, List.append_assoc, range'_blocks c ca cb hle1 hle2]
      split at hrun
      · injection hrun with hrun
        have e1 := congrArg Prod.fst hrun
        have e2 : cb = c1 := congrArg (fun p => p.2.1) hrun
        simp only at e1
        subst e1 e2
        exact ⟨le_trans hle1 hle2, by rw [NudgeWeights_keys]; exact hkeys⟩
      · injection hrun with hrun
        have e1 : gb = g1 := congrArg Prod.fst hrun
        have e2 : cb = c1 := congrArg (fun p => p.2.1) hrun
        subst e1 e2
        exact ⟨le_trans hle1 hle2, hkeys⟩

theorem Descends_mono (pop : List Network) (c0 c c1 : Nat) (g : Network) (h : c ≤ c1)
    (hd : Descends pop c0 c g) : Descends pop c0 c1 g := by
  obtain ⟨g0, hg0, a, b, h1, h2, h3, h4⟩ := hd
  exact ⟨g0, hg0, a, b, h1, h2, le_trans h3 h, h4⟩

/-- Adding to the new population a genome that has the ids of a genome of the old
population and the counter values `c, ..., c1 - 1` keeps the new ids apart. -/
theorem blocks_append (pop newPop : List Network) (c0 c c1 : Nat) (o g0 : Network)
    (hpop : ∀ g ∈ pop, g.idsBelow c0) (hc0 : c0 ≤ c) (hc : c ≤ c1) (hg0 : g0 ∈ pop)
    (hkeys : o.genes.map Prod.fst = g0.genes.map Prod.fst ++ List.range' c (c1 - c))
    (hD : ∀ g ∈ newPop, Descends pop c0 c g) (hF : FreshApart c0 newPop) :
    (∀ g ∈ newPop ++ [o], Descends pop c0 c1 g) ∧ FreshApart c0 (newPop ++ [o]) := by
  refine ⟨?_, ?_⟩
  · intro g hg
    rcases List.mem_append.mp hg with hg | hg
    · exact Descends_mono pop c0 c c1 g hc (hD g hg)
    · rw [List.mem_singleton.mp hg]
      exact ⟨g0, hg0, c, c1, hc0, hc, le_refl _, hkeys⟩
  · unfold FreshApart
    rw [List.pairwise_append]
    refine ⟨hF, List.pairwise_singleton _ _, ?_⟩
    intro g hg h hh id hid hidg hido
    rw [List.mem_singleton.mp hh, hkeys] at hido
    obtain ⟨g1, hg1, a, b, _, _, hbc, hk⟩ := hD g hg
    rw [hk] at hidg
    have hlt : id < c := by
      rcases List.mem_append.mp hidg with h1 | h1
      · have := (idsBelow_iff_keys g1 c0).mp (hpop g1 hg1) id h1
        omega
      · have := (List.mem_range'_1.mp h1).2
        omega
    rcases List.mem_append.mp hido with h2 | h2
    · have := (idsBelow_iff_keys g0 c0).mp (hpop g0 hg0) id h2
      omega
    · have := (List.mem_range'_1.mp h2).1
      omega

theorem fillOffspring_blocks (neat : Neat) (pop orgs : List Network) (c0 : Nat)
    (hpop : ∀ g ∈ pop, g.idsBelow c0)
    (horgs : ∀ p ∈ orgs, ∃ g0 ∈ pop, p.genes = g0.genes)
    (offspring : Nat) (newPop : List Network) (inno : Nat) (rnd : Rand)
    (newPop1 : List Network) (inno1 : Nat) (rnd1 : Rand) (hc0 : c0 ≤ inno)
    (hD : ∀ g ∈ newPop, Descends pop c0 inno g) (hF : FreshApart c0 newPop)
    (hrun : neat.fillOffspring orgs offspring newPop inno rnd
      = Except.ok (newPop1, inno1, rnd1)) :
    inno ≤ inno1 ∧ (∀ g ∈ newPop1, Descends pop c0 inno1 g) ∧ FreshApart c0 newPop1 := by
  induction offspring generalizing newPop inno rnd with
  | zero =>
    unfold Neat.fillOffspring at hrun
    injection hrun with hrun
    have e1 : newPop = newPop1 := congrArg Prod.fst hrun
    have e2 : inno = inno1 := congrArg (fun p => p.2.1) hrun
    subst e1 e2
    exact ⟨le_refl _, hD, hF⟩
  | succ offspring ih =>
    unfold Neat.fillOffspring at hrun
    split at hrun
    · exact absurd hrun (by simp)
    · split at hrun
      · exact absurd hrun (by simp)
      · rename_i org horg
        split at hrun
        · exact absurd hrun (by simp)
        · rename_i newOrg inno2 rnd2 hmut
          obtain ⟨g0, hg0, hgenes⟩ := horgs org (List.getElem?_mem horg)
          have hcopy : org.Copy.genes = g0.genes := hgenes
          have hbelow : org.Copy.idsBelow inno :=
            idsBelow_mono _ _ _ hc0 (idsBelow_of_genes_eq g0 org.Copy c0 hcopy (hpop g0 hg0))
          obtain ⟨hle, hkeys⟩ := MutateNetwork_block neat org.Copy inno _ newOrg inno2 rnd2
            hbelow hmut
          rw [hcopy] at hkeys
          obtain ⟨hD2, hF2⟩ := blocks_append pop newPop c0 inno inno2 newOrg g0 hpop hc0 hle
            hg0 hkeys hD hF
          obtain ⟨hle2, hD3, hF3⟩ := ih _ _ _ (le_trans hc0 hle) hD2 hF2 hrun
          exact ⟨le_trans hle hle2, hD3, hF3⟩

theorem reproduceSpecies_blocks (neat : Neat) (pop : List Network) (c0 : Nat)
    (hpop : ∀ g ∈ pop, g.idsBelow c0) (spec : Species)
    (horgs : ∀ p ∈ spec.orgs, ∃ g0 ∈ pop, p.genes = g0.genes)
    (newPop : List Network) (inno : Nat) (rnd : Rand)
    (newPop1 : List Network) (inno1 : Nat) (rnd1 : Rand) (hc0 : c0 ≤ inno)
    (hD : ∀ g ∈ newPop, Descends pop c0 inno g) (hF : FreshApart c0 newPop)
    (hrun : neat.reproduceSpecies spec newPop inno rnd = Except.ok (newPop1, inno1, rnd1)) :
    inno ≤ inno1 ∧ (∀ g ∈ newPop1, Descends pop c0 inno1 g) ∧ FreshApart c0 newPop1 := by
  unfold Neat.reproduceSpecies at hrun
  split at hrun
  · split at hrun
    · exact absurd hrun (by simp)
    · rename_i best hbest
      obtain ⟨g0, hg0, hgenes⟩ := horgs best (BestFitness_mem _ _ hbest)
      have hkeys : best.Copy.genes.map Prod.fst
          = g0.genes.map Prod.fst ++ List.range' inno (inno - inno) := by
        have hcopy : best.Copy.genes = g0.genes := hgenes
        rw [hcopy]
        simp
      obtain ⟨hD2, hF2⟩ := blocks_append pop newPop c0 inno inno best.Copy g0 hpop hc0
        (le_refl _) hg0 hkeys hD hF
      exact fillOffspring_blocks neat pop spec.orgs c0 hpop horgs _ _ _ _ _ _ _ hc0 hD2 hF2 hrun
  · exact fillOffspring_blocks neat pop spec.orgs c0 hpop horgs _ _ _ _ _ _ _ hc0 hD hF hrun

theorem reproduceAll_blocks (neat : Neat) (pop : List Network) (c0 : Nat)
    (hpop : ∀ g ∈ pop, g.idsBelow c0) (speciesList : List Species)
    (horgs : ∀ s ∈ speciesList, ∀ p ∈ s.orgs, ∃ g0 ∈ pop, p.genes = g0.genes)
    (newPop : List Network) (inno : Nat) (rnd : Rand)
    (newPop1 : List Network) (inno1 : Nat) (rnd1 : Rand) (hc0 : c0 ≤ inno)
    (hD : ∀ g ∈ newPop, Descends pop c0 inno g) (hF : FreshApart c0 newPop)
    (hrun : neat.reproduceAll speciesList newPop inno rnd = Except.ok (newPop1, inno1, rnd1)) :
    inno ≤ inno1 ∧ (∀ g ∈ newPop1, Descends pop c0 inno1 g) ∧ FreshApart c0 newPop1 := by
  induction speciesList generalizing newPop inno rnd with
  | nil =>
    unfold Neat.reproduceAll at hrun
    injection hrun with hrun
    have e1 : newPop = newPop1 := congrArg Prod.fst hrun
    have e2 : inno = inno1 := congrArg (fun p => p.2.1) hrun
    subst e1 e2
    exact ⟨le_refl _, hD, hF⟩
  | cons spec rest ih =>
    unfold Neat.reproduceAll at hrun
    split at hrun
    · exact absurd hrun (by simp)
    · rename_i newPop2 inno2 rnd2 hspec
      obtain ⟨hle, hD2, hF2⟩ := reproduceSpecies_blocks neat pop c0 hpop spec
        (horgs spec (List.mem_cons_self _ _)) _ _ _ _ _ _ hc0 hD hF hspec
      obtain ⟨hle2, hD3, hF3⟩ := ih (fun s hs => horgs s (List.mem_cons_of_mem _ hs))
        _ _ _ (le_trans hc0 hle) hD2 hF2 hrun
      exact ⟨le_trans hle hle2, hD3, hF3⟩

theorem Reproduce_blocks (neat : Neat) (rnd : Rand) (neat1 : Neat) (rnd1 : Rand)
    (hpop : ∀ g ∈ neat.pop, g.idsBelow neat.inno)
    (hrun : neat.Reproduce rnd = Except.ok (neat1, rnd1)) :
    (∀ g ∈ neat1.pop, Descends neat.pop neat.inno neat1.inno g)
      ∧ FreshApart neat.inno neat1.pop := by
  unfold Neat.Reproduce at hrun
  simp only at hrun
  split at hrun
  · exact absurd hrun (by simp)
  · rename_i sprinkled hsp
    split at hrun
    · exact absurd hrun (by simp)
    · rename_i newPop inno rnd2 hall
      injection hrun with hrun
      have e1 := congrArg Prod.fst hrun
      simp only at e1
      subst e1
      have horgs : ∀ s ∈ sprinkled, ∀ p ∈ s.orgs, ∃ g0 ∈ neat.pop, p.genes = g0.genes := by
        intro s hs g hg
        have hso := sprinkle_orgs _ _ _ _ hsp
        have hmem : s.orgs ∈ sprinkled.map (fun s => s.orgs) := List.mem_map_of_mem _ hs
        rw [hso] at hmem
        obtain ⟨s1, hs1, hs1orgs⟩ := List.mem_map.mp hmem
        simp only [Neat.assignOffspring] at hs1
        obtain ⟨s0, hs0, rfl⟩ := List.mem_map.mp hs1
        simp only at hs1orgs
        rw [← hs1orgs] at hg
        exact Speciate_member_genes neat s0 hs0 g hg
      obtain ⟨_, hD, hF⟩ := reproduceAll_blocks neat neat.pop neat.inno hpop sprinkled horgs
        [] neat.inno rnd _ _ _ (le_refl _) (by simp) List.Pairwise.nil hall
      exact ⟨hD, hF⟩

/-- C19: in every state reachable from `NewNeat` by fitness assignments and completed
`Reproduce` calls, under any random choices, every gene id of every genome of the
population is below the historical-marking counter. A completed `Reproduce` call does not
decrease the counter; every genome of the new population has the gene ids of a genome of
the old population followed by consecutive counter values handed out during the call, all
of them at or above the old counter and below the new one; and no id handed out during the
call occurs in two genomes of the new population. A `MutateAddGene` or `MutateAddNode` call
on a genome whose ids are below the counter `c` adds exactly the ids `c, ..., c1 - 1`,
where `c1` is the counter it leaves, at most one for a gene and none or two for a node.
So no mutation reuses an id already handed out. -/
theorem inno_above_ids (neat : Neat) (h : Reachable neat) :
    (∀ g ∈ neat.pop, g.idsBelow neat.inno)
      ∧ (∀ rnd neat1 rnd1, neat.Reproduce rnd = Except.ok (neat1, rnd1) →
          neat.inno ≤ neat1.inno
            ∧ (∀ g ∈ neat1.pop, g.idsBelow neat1.inno)
            ∧ (∀ g ∈ neat1.pop, Descends neat.pop neat.inno neat1.inno g)
            ∧ FreshApart neat.inno neat1.pop)
      ∧ (∀ (g : Network) (c : Nat) (rnd : Rand) (g1 : Network) (c1 : Nat) (rnd1 : Rand),
          g.idsBelow c → g.MutateAddGene c rnd = Except.ok (g1, c1, rnd1) →
          c ≤ c1 ∧ c1 ≤ c + 1
            ∧ g1.genes.map Prod.fst = g.genes.map Prod.fst ++ List.range' c (c1 - c))
      ∧ (∀ (g : Network) (c : Nat) (rnd : Rand) (g1 : Network) (c1 : Nat) (rnd1 : Rand),
          g.idsBelow c → g.MutateAddNode c rnd = Except.ok (g1, c1, rnd1) →
          (c1 = c ∨ c1 = c + 2)
            ∧ g1.genes.map Prod.fst = g.genes.map Prod.fst ++ List.range' c (c1 - c)) := by
  have hinv : ∀ g ∈ neat.pop, g.idsBelow neat.inno := by
    induction h with
    | init fuel config rnd neat rnd1 hrun => exact NewNeat_idsBelow fuel config rnd neat rnd1 hrun
    | assign neat pop1 _ hsame ih => exact SameGenomes_idsBelow neat.pop pop1 _ hsame ih
    | reproduce neat rnd neat1 rnd1 _ hrun ih =>
      exact (Reproduce_idsBelow neat rnd neat1 rnd1 hrun).2 ih
  refine ⟨hinv, ?_, ?_, ?_⟩
  · intro rnd neat1 rnd1 hrun
    obtain ⟨hle, hids⟩ := Reproduce_idsBelow neat rnd neat1 rnd1 hrun
    obtain ⟨hD, hF⟩ := Reproduce_blocks neat rnd neat1 rnd1 hinv hrun
    exact ⟨hle, hids hinv, hD, hF⟩
  · intro g c rnd g1 c1 rnd1 hb hrun
    exact MutateAddGene_block g c rnd g1 c1 rnd1 hb hrun
  · intro g c rnd g1 c1 rnd1 hb hrun
    exact MutateAddNode_block g c rnd g1 c1 rnd1 hb hrun

/-- C19, at the state that `NewNeat` returns for six genomes under `zeroRand`, after the
fitness 1 was assigned to every genome: `Reproduce` completes under the counting random
source and hands out ids, the counter grows, every gene id of the new population is below
the new counter, every new genome has the ids of an old genome followed by counter values
of the call, and no such value occurs in two genomes. -/
theorem inno_above_ids_witness :
    ∃ r, fitNeat.Reproduce countingRand = Except.ok r
      ∧ fitNeat.inno < r.1.inno
      ∧ fitNeat.inno ≤ r.1.inno
      ∧ (∀ g ∈ r.1.pop, g.idsBelow r.1.inno)
      ∧ (∀ g ∈ r.1.pop, Descends fitNeat.pop fitNeat.inno r.1.inno g)
      ∧ FreshApart fitNeat.inno r.1.pop :=
  have hinit : Reachable zeroFitnessNeat :=
    Reachable.init 1 (testConfig 1 1 1 6 1) zeroRand zeroFitnessNeat _
      (by with_unfolding_all rfl)
  have hsame : SameGenomes zeroFitnessNeat.pop fitNeat.pop := by
    unfold SameGenomes
    repeat (first | exact List.Forall₂.nil | apply List.Forall₂.cons ⟨rfl, rfl⟩)
  have hreach : Reachable fitNeat := Reachable.assign zeroFitnessNeat fitNeat.pop hinit hsame
  have hgrow : (match fitNeat.Reproduce countingRand with
      | .ok r => decide (fitNeat.inno < r.1.inno)
      | .error _ => false) = true := by decide!
  match hrun : fitNeat.Reproduce countingRand with
  | .ok r => ⟨r, rfl, by rw [hrun] at hgrow; simpa using hgrow,
      (inno_above_ids fitNeat hreach).2.1 countingRand r.1 r.2 hrun⟩
  | .error f => absurd hgrow (by rw [hrun]; simp)

/-- C17, at a population of three genomes of fitness 1, 3 and 5, in two species of adjusted
sums 5 and 2: the fitness per offspring is 7/3, the floors are 2 and 0, and the one
missing offspring goes to the species of index 0. -/
theorem allocateOffspring_spec_witness :
    ∃ sprinkled, threeNeat.allocateOffspring = Except.ok sprinkled
      ∧ sprinkled.map (fun s => s.offspring) = [3, 0]
      ∧ (∀ s ∈ sprinkled, 0 ≤ s.offspring)
      ∧ (sprinkled.map (fun s => s.offspring)).sum = threeNeat.config.size := by
  obtain ⟨sprinkled, h, hlen, hidx, hnn, hsum, _⟩ :=
    allocateOffspring_spec threeNeat (List.cons_ne_nil _ _) (by decide) (by decide!)
  refine ⟨sprinkled, h, ?_, hnn, hsum⟩
  have hS : threeNeat.Speciate = [speciesC, speciesAB] := by with_unfolding_all rfl
  have h0 := hidx 0 speciesC (by rw [hS]; rfl)
  have h1 := hidx 1 speciesAB (by rw [hS]; rfl)
  obtain ⟨s0, hs0, _, _, ho0⟩ := h0
  obtain ⟨s1, hs1, _, _, ho1⟩ := h1
  have e0 : ⌊speciesC.adjustedSum / fitnessPerOffspringOf threeNeat⌋
      + (roundRobinExtra (offspringShortfall threeNeat) threeNeat.Speciate.length 0 : Int) = 3 := by
    decide!
  have e1 : ⌊speciesAB.adjustedSum / fitnessPerOffspringOf threeNeat⌋
      + (roundRobinExtra (offspringShortfall threeNeat) threeNeat.Speciate.length 1 : Int) = 0 := by
    decide!
  rw [e0] at ho0
  rw [e1] at ho1
  have hl2 : sprinkled.length = 2 := by rw [hlen, hS]; rfl
  match sprinkled, hl2, hs0, hs1 with
  | [a, b], _, hs0, hs1 =>
    simp only [List.getElem?_cons_zero, List.getElem?_cons_succ, Option.some.injEq] at hs0 hs1
    subst hs0 hs1
    simp [ho0, ho1]

end NeatGo
